import Mathlib

/-!
Shallow embedding of the `sql-database-rust` storage engine
(`src/storage/mod.rs`, `src/storage/btree.rs`, `src/storage/page.rs`,
`src/storage/table.rs`, `src/query/executor.rs`, `src/sharding/mod.rs`)
together with theorems settling the specification claims.

Modelling conventions:
* Rust `i64` becomes `Int` (the claims never exercise 64-bit overflow).
* Rust `Vec` / `HashMap` / `BTreeMap` become lists; the `BTreeMap` of the
  index is a list of key/row-id-list entries kept in the order the custom
  `IndexKey::cmp` produces, with `entry`, `get`, `get_mut`, `range` and
  removal translated structurally.
* `&mut self` methods become functions returning the result paired with
  the successor state, so a failing call still exposes the state it left
  behind (matching the Rust borrow of the whole structure).
* Rust indexing that would panic only on inputs unreachable from the
  public API is translated with `getD` defaults.
-/

namespace SqlDb

/-- `Value` from `src/storage/mod.rs`: the closed tagged union of cell values.
`Float` keeps the source's scaled-`i64` representation. -/
inductive Value where
  | null
  | integer (i : Int)
  | float (f : Int)
  | text (s : String)
  | boolean (b : Bool)
deriving DecidableEq

/-- `Value::compare`: ordering inside one tag, `None` across tags. -/
def Value.compare : Value → Value → Option Ordering
  | .integer a, .integer b => some (compareOfLessAndEq a b)
  | .float a, .float b => some (compareOfLessAndEq a b)
  | .text a, .text b => some (compareOfLessAndEq a b)
  | .boolean a, .boolean b => some (compareOfLessAndEq a b)
  | _, _ => none

/-- `IndexKey::cmp` from `src/storage/btree.rs`: incomparable values are
forced to `Equal`. -/
def idxCmp (a b : Value) : Ordering :=
  (Value.compare a b).getD Ordering.eq

/-- `DataType` from `src/storage/mod.rs`. -/
inductive DataType where
  | integer
  | float
  | text
  | boolean
deriving DecidableEq

/-- `Column` from `src/storage/mod.rs`. -/
structure Column where
  name : String
  data_type : DataType
  primary_key : Bool
  nullable : Bool
deriving DecidableEq

instance : Inhabited Column := ⟨⟨"", .integer, false, false⟩⟩

/-- `Schema` from `src/storage/mod.rs`. -/
structure Schema where
  columns : List Column
deriving DecidableEq

/-- `Schema::get_column_index`. -/
def Schema.get_column_index (s : Schema) (name : String) : Option Nat :=
  s.columns.findIdx? (fun c => c.name == name)

/-- `Schema::get_primary_key_index`. -/
def Schema.get_primary_key_index (s : Schema) : Option Nat :=
  s.columns.findIdx? (fun c => c.primary_key)

/-- `Row` from `src/storage/mod.rs`. -/
structure Row where
  values : List Value
deriving DecidableEq

/-! ### The B-tree index (`src/storage/btree.rs`)

The `BTreeMap<IndexKey, Vec<usize>>` is embedded as a list of entries held
in the key order produced by `IndexKey::cmp`; `entry().or_insert_with().push`,
`get`, `get_mut`+`retain` and `range(min..=max)` are translated structurally
on that list. -/

/-- `entry(key).or_insert_with(Vec::new).push(row_id)` on the ordered entry
list: merge into the first `cmp`-equal key, or insert a fresh entry at the
sorted position. -/
def btreeInsert : List (Value × List Nat) → Value → Nat → List (Value × List Nat)
  | [], v, id => [(v, [id])]
  | e :: rest, v, id =>
    match idxCmp v e.1 with
    | .lt => (v, [id]) :: e :: rest
    | .eq => (e.1, e.2 ++ [id]) :: rest
    | .gt => e :: btreeInsert rest v id

/-- `tree.get(&key)`: the entry whose key is `cmp`-equal to `v`, if any. -/
def btreeLookup : List (Value × List Nat) → Value → Option (List Nat)
  | [], _ => none
  | e :: rest, v =>
    match idxCmp v e.1 with
    | .eq => some e.2
    | _ => btreeLookup rest v

/-- `tree.get_mut(&key)` followed by `retain(|id| id != row_id)` and removal
of the entry once empty. -/
def btreeRemove : List (Value × List Nat) → Value → Nat → List (Value × List Nat)
  | [], _, _ => []
  | e :: rest, v, id =>
    match idxCmp v e.1 with
    | .eq =>
      if (e.2.filter (fun x => x ≠ id)).isEmpty then rest
      else (e.1, e.2.filter (fun x => x ≠ id)) :: rest
    | _ => e :: btreeRemove rest v id

/-- `tree.range(min_key..=max_key)`: `BTreeMap::range` panics when the range
start compares greater than the range end under the key order (here
`IndexKey::cmp`), and otherwise yields the contiguous run of entries from
the first key not below `min` through the last key not above `max`; the
panic is modeled as the error case. -/
def btreeRange (tr : List (Value × List Nat)) (mn mx : Value) :
    Except String (List Nat) :=
  if idxCmp mn mx = .gt then
    .error "range start is greater than range end in BTreeMap"
  else
    .ok ((((tr.dropWhile (fun e => idxCmp e.1 mn = .lt)).takeWhile
      (fun e => idxCmp e.1 mx ≠ .gt)).map (·.2)).flatten)

/-- `BTreeIndex` from `src/storage/btree.rs`. -/
structure BTreeIndex where
  tree : List (Value × List Nat)
  column_name : String
deriving DecidableEq

/-- `BTreeIndex::new`. -/
def BTreeIndex.new (column_name : String) : BTreeIndex :=
  ⟨[], column_name⟩

/-- `BTreeIndex::insert`. -/
def BTreeIndex.insert (ix : BTreeIndex) (v : Value) (row_id : Nat) : BTreeIndex :=
  { ix with tree := btreeInsert ix.tree v row_id }

/-- `BTreeIndex::lookup`. -/
def BTreeIndex.lookup (ix : BTreeIndex) (v : Value) : Option (List Nat) :=
  btreeLookup ix.tree v

/-- `BTreeIndex::range_query`.  The source signature returns a plain
`Vec<usize>` - no `Result` - but the underlying `BTreeMap::range` panics
when the start bound compares greater than the end bound, so the call can
still fail; the panic is modeled as the error case. -/
def BTreeIndex.range_query (ix : BTreeIndex) (mn mx : Value) :
    Except String (List Nat) :=
  btreeRange ix.tree mn mx

/-- `BTreeIndex::remove`. -/
def BTreeIndex.remove (ix : BTreeIndex) (v : Value) (row_id : Nat) : BTreeIndex :=
  { ix with tree := btreeRemove ix.tree v row_id }

/-! ### Pages (`src/storage/page.rs`) -/

/-- `Page` from `src/storage/page.rs`. -/
structure Page where
  id : Nat
  rows : List Row
  max_rows : Nat
deriving DecidableEq

/-- `Page::new`. -/
def Page.new (id max_rows : Nat) : Page :=
  ⟨id, [], max_rows⟩

/-- `Page::is_full`. -/
def Page.is_full (p : Page) : Bool :=
  p.rows.length ≥ p.max_rows

/-- `Page::insert`: pushes the row unless the page is full; the `Bool` is the
source's success flag. -/
def Page.insert (p : Page) (r : Row) : Bool × Page :=
  if p.is_full then (false, p) else (true, { p with rows := p.rows ++ [r] })

/-- `PageManager` from `src/storage/page.rs`. -/
structure PageManager where
  pages : List Page
  max_rows_per_page : Nat
deriving DecidableEq

/-- `PageManager::new`. -/
def PageManager.new (max_rows_per_page : Nat) : PageManager :=
  ⟨[], max_rows_per_page⟩

/-- The `for page in &mut self.pages` search of `PageManager::insert`:
append to the first non-full page, reporting `(page.id, slot)`. -/
def pagesInsert : List Page → Row → Option ((Nat × Nat) × List Page)
  | [], _ => none
  | p :: rest, r =>
    if p.is_full then
      match pagesInsert rest r with
      | some (pos, rest2) => some (pos, p :: rest2)
      | none => none
    else
      some ((p.id, p.rows.length), (p.insert r).2 :: rest)

/-- `PageManager::insert`: place in the first page with space, else allocate
a new page whose id is the current page count. -/
def PageManager.insert (pm : PageManager) (r : Row) : (Nat × Nat) × PageManager :=
  match pagesInsert pm.pages r with
  | some (pos, pages2) => (pos, ⟨pages2, pm.max_rows_per_page⟩)
  | none =>
    let page_id := pm.pages.length
    let new_page := ((Page.new page_id pm.max_rows_per_page).insert r).2
    ((page_id, 0), ⟨pm.pages ++ [new_page], pm.max_rows_per_page⟩)

/-- `PageManager::get`: decode `row_id` as `page * capacity + slot`. -/
def PageManager.get (pm : PageManager) (row_id : Nat) : Option Row := do
  let p ← pm.pages[row_id / pm.max_rows_per_page]?
  p.rows[row_id % pm.max_rows_per_page]?

/-- In-place update of index `i` of a list (identity when out of range);
used to embed `get_mut` write-backs. -/
def listModify {α : Type} (l : List α) (i : Nat) (f : α → α) : List α :=
  match l[i]? with
  | some a => l.set i (f a)
  | none => l

/-- The write-back of a row obtained through `PageManager::get_mut`. -/
def PageManager.setRow (pm : PageManager) (row_id : Nat) (r : Row) : PageManager :=
  { pm with
    pages := listModify pm.pages (row_id / pm.max_rows_per_page)
      (fun p => { p with rows := p.rows.set (row_id % pm.max_rows_per_page) r }) }

/-- `PageManager::scan`: all `(page.id * capacity + slot, row)` pairs in page
then slot order. -/
def PageManager.scan (pm : PageManager) : List (Nat × Row) :=
  (pm.pages.map (fun p =>
    p.rows.enum.map (fun er => (p.id * pm.max_rows_per_page + er.1, er.2)))).flatten

/-- `PageManager::total_rows`. -/
def PageManager.total_rows (pm : PageManager) : Nat :=
  (pm.pages.map (fun p => p.rows.length)).sum

/-! ### Tables (`src/storage/table.rs`) -/

/-- Lookup in the `HashMap<String, BTreeIndex>` of a table. -/
def idxGet (m : List (String × BTreeIndex)) (k : String) : Option BTreeIndex :=
  (m.find? (fun e => e.1 == k)).map (·.2)

/-- `indexes.get_mut(name)` followed by an in-place index mutation: a no-op
when the column has no index, exactly as the source's `if let Some(...)`. -/
def idxModify (m : List (String × BTreeIndex)) (k : String)
    (f : BTreeIndex → BTreeIndex) : List (String × BTreeIndex) :=
  m.map (fun e => if e.1 == k then (e.1, f e.2) else e)

/-- `Table` from `src/storage/table.rs`. -/
structure Table where
  name : String
  schema : Schema
  page_manager : PageManager
  indexes : List (String × BTreeIndex)
  next_row_id : Nat
deriving DecidableEq

/-- `Table::create_index`: fails when the column is absent or already
indexed, otherwise populates a fresh index from a full scan. -/
def Table.create_index (t : Table) (column_name : String) :
    Except String Unit × Table :=
  match t.schema.get_column_index column_name with
  | none => (.error ("Column not found: " ++ column_name), t)
  | some col_index =>
    if (idxGet t.indexes column_name).isSome then
      (.error ("Index already exists on column: " ++ column_name), t)
    else
      let ix := t.page_manager.scan.foldl
        (fun ix pr => ix.insert (pr.2.values.getD col_index .null) pr.1)
        (BTreeIndex.new column_name)
      (.ok (), { t with indexes := t.indexes ++ [(column_name, ix)] })

/-- `Table::new`: 100 rows per page, and an automatic index on the primary
key column (the returned `Result` of that `create_index` is discarded). -/
def Table.new (name : String) (schema : Schema) : Table :=
  let t : Table := ⟨name, schema, PageManager.new 100, [], 0⟩
  match schema.get_primary_key_index with
  | some pk_index => (t.create_index (schema.columns.getD pk_index default).name).2
  | none => t

/-- The index-maintenance loop of `Table::insert`: for every column position
holding a value, push `row_id` into that column's index when one exists. -/
def updateIndexesOnInsert (schema : Schema) (m : List (String × BTreeIndex))
    (values : List Value) (row_id : Nat) : List (String × BTreeIndex) :=
  values.enum.foldl (fun m cv =>
    idxModify m (schema.columns.getD cv.1 default).name
      (fun ix => ix.insert cv.2 row_id)) m

/-- The primary-key constraint check of `Table::insert`: `true` exactly when
a primary-key column exists, carries an index, and that index already holds
the incoming primary-key value. -/
def pkDup (t : Table) (values : List Value) : Bool :=
  match t.schema.get_primary_key_index with
  | some pk_index =>
    match idxGet t.indexes (t.schema.columns.getD pk_index default).name with
    | some index => (index.lookup (values.getD pk_index .null)).isSome
    | none => false
  | none => false

/-- `Table::insert`: arity validation, primary-key uniqueness via the
primary-key index, page write, then index maintenance. -/
def Table.insert (t : Table) (values : List Value) : Except String Nat × Table :=
  if values.length ≠ t.schema.columns.length then
    (.error ("Expected " ++ toString t.schema.columns.length ++ " values, got "
      ++ toString values.length), t)
  else if pkDup t values then
    (.error "Primary key violation: duplicate value", t)
  else
    let row : Row := ⟨values⟩
    let pm2 := (t.page_manager.insert row).2
    let row_id := t.next_row_id
    let idxs2 := updateIndexesOnInsert t.schema t.indexes row.values row_id
    (.ok row_id,
      { t with page_manager := pm2, next_row_id := row_id + 1, indexes := idxs2 })

/-- `Table::select`: index lookup when filtering on an indexed column, full
scan otherwise; no filter returns every row. -/
def Table.select (t : Table) (column_name : Option String) (value : Option Value) :
    Except String (List Row) :=
  match column_name, value with
  | some col_name, some val =>
    match idxGet t.indexes col_name with
    | some index =>
      match index.lookup val with
      | some row_ids => .ok (row_ids.filterMap (fun id => t.page_manager.get id))
      | none => .ok []
    | none =>
      match t.schema.get_column_index col_name with
      | none => .error ("Column not found: " ++ col_name)
      | some col_index =>
        .ok ((t.page_manager.scan.filter
          (fun pr => pr.2.values.getD col_index .null == val)).map (·.2))
  | _, _ => .ok (t.page_manager.scan.map (·.2))

/-- The candidate-row-id computation shared verbatim by `Table::update` and
`Table::delete`: index lookup when available, else a filtered scan. -/
def Table.findRowIds (t : Table) (col_name : String) (col_index : Nat)
    (val : Value) : List Nat :=
  match idxGet t.indexes col_name with
  | some index => (index.lookup val).getD []
  | none =>
    (t.page_manager.scan.filter
      (fun pr => pr.2.values.getD col_index .null == val)).map (·.1)

/-- One iteration of the `Table::update` row loop: skip missing rows, else
remove the old value from the updated column's index, write the new value in
place, and re-insert it. -/
def updateOne (update_col_index : Nat) (update_column : String)
    (update_value : Value) (acc : Nat × Table) (row_id : Nat) : Nat × Table :=
  let t := acc.2
  match t.page_manager.get row_id with
  | none => acc
  | some row =>
    let old_value := row.values.getD update_col_index .null
    let idxs1 := idxModify t.indexes update_column (fun ix => ix.remove old_value row_id)
    let pm1 := t.page_manager.setRow row_id ⟨row.values.set update_col_index update_value⟩
    let idxs2 := idxModify idxs1 update_column (fun ix => ix.insert update_value row_id)
    (acc.1 + 1, { t with page_manager := pm1, indexes := idxs2 })

/-- `Table::update`: snapshot the matching row ids, then rewrite each one. -/
def Table.update (t : Table) (where_column : String) (where_value : Value)
    (update_column : String) (update_value : Value) : Except String Nat × Table :=
  match t.schema.get_column_index where_column with
  | none => (.error ("Column not found: " ++ where_column), t)
  | some where_col_index =>
    match t.schema.get_column_index update_column with
    | none => (.error ("Column not found: " ++ update_column), t)
    | some update_col_index =>
      let row_ids := t.findRowIds where_column where_col_index where_value
      let r := row_ids.foldl (updateOne update_col_index update_column update_value) (0, t)
      (.ok r.1, r.2)

/-- The per-row index cleanup of `Table::delete`: remove the row's value from
every indexed column.  Note the source never removes the row from the page
store. -/
def deleteOne (schema : Schema) (acc : Table) (row_id : Nat) : Table :=
  match acc.page_manager.get row_id with
  | none => acc
  | some row =>
    let idxs := row.values.enum.foldl (fun m cv =>
      idxModify m (schema.columns.getD cv.1 default).name
        (fun ix => ix.remove cv.2 row_id)) acc.indexes
    { acc with indexes := idxs }

/-- `Table::delete`: snapshot the matching row ids, strip them from every
index, and return the count.  The page store is untouched. -/
def Table.delete (t : Table) (column_name : String) (value : Value) :
    Except String Nat × Table :=
  match t.schema.get_column_index column_name with
  | none => (.error ("Column not found: " ++ column_name), t)
  | some col_index =>
    let row_ids := t.findRowIds column_name col_index value
    let delete_count := row_ids.length
    let t2 := row_ids.foldl (fun acc id => deleteOne t.schema acc id) t
    (.ok delete_count, t2)

/-- `Table::row_count`. -/
def Table.row_count (t : Table) : Nat :=
  t.page_manager.total_rows

/-! ### Query IR and executor (`src/query/executor.rs`)

The textual SQL parser is an external collaborator (spec §1); the executor is
embedded over the structured `Query` IR it produces. -/

/-- `WhereClause` from `src/query/parser.rs`. -/
structure WhereClause where
  column : String
  value : Value
deriving DecidableEq

/-- `Query` from `src/query/parser.rs`. -/
inductive Query where
  | createTable (name : String) (schema : Schema)
  | insert (table_name : String) (values : List Value)
  | select (table_name : String) (where_clause : Option WhereClause)
  | update (table_name : String) (set_column : String) (set_value : Value)
      (where_clause : WhereClause)
  | delete (table_name : String) (where_clause : WhereClause)
  | createIndex (table_name : String) (column_name : String)
deriving DecidableEq

/-- `QueryResult` from `src/query/executor.rs`. -/
inductive QueryResult where
  | rows (rows : List Row) (column_names : List String)
  | message (msg : String)
deriving DecidableEq

/-- Lookup in the executor's `HashMap<String, Table>`. -/
def tablesGet (m : List (String × Table)) (k : String) : Option Table :=
  (m.find? (fun e => e.1 == k)).map (·.2)

/-- Write-back of a table obtained through `tables.get_mut`. -/
def tablesSet (m : List (String × Table)) (k : String) (t : Table) :
    List (String × Table) :=
  m.map (fun e => if e.1 == k then (e.1, t) else e)

/-- `QueryExecutor` from `src/query/executor.rs`. -/
structure QueryExecutor where
  tables : List (String × Table)
deriving DecidableEq

/-- `QueryExecutor::new`. -/
def QueryExecutor.new : QueryExecutor := ⟨[]⟩

/-- `QueryExecutor::execute`. -/
def QueryExecutor.execute (ex : QueryExecutor) (q : Query) :
    Except String QueryResult × QueryExecutor :=
  match q with
  | .createTable name schema =>
    if (tablesGet ex.tables name).isSome then
      (.error ("Table already exists: " ++ name), ex)
    else
      (.ok (.message ("Table created: " ++ name)),
        ⟨ex.tables ++ [(name, Table.new name schema)]⟩)
  | .insert table_name values =>
    match tablesGet ex.tables table_name with
    | none => (.error ("Table not found: " ++ table_name), ex)
    | some t =>
      let r := t.insert values
      let ex2 : QueryExecutor := ⟨tablesSet ex.tables table_name r.2⟩
      match r.1 with
      | .error e => (.error e, ex2)
      | .ok _ => (.ok (.message ("1 row inserted into " ++ table_name)), ex2)
  | .select table_name wc =>
    match tablesGet ex.tables table_name with
    | none => (.error ("Table not found: " ++ table_name), ex)
    | some t =>
      let r := match wc with
        | some w => t.select (some w.column) (some w.value)
        | none => t.select none none
      match r with
      | .error e => (.error e, ex)
      | .ok rows =>
        (.ok (.rows rows (t.schema.columns.map (·.name))), ex)
  | .update table_name set_column set_value w =>
    match tablesGet ex.tables table_name with
    | none => (.error ("Table not found: " ++ table_name), ex)
    | some t =>
      let r := t.update w.column w.value set_column set_value
      let ex2 : QueryExecutor := ⟨tablesSet ex.tables table_name r.2⟩
      match r.1 with
      | .error e => (.error e, ex2)
      | .ok cnt =>
        (.ok (.message (toString cnt ++ " row(s) updated in " ++ table_name)), ex2)
  | .delete table_name w =>
    match tablesGet ex.tables table_name with
    | none => (.error ("Table not found: " ++ table_name), ex)
    | some t =>
      let r := t.delete w.column w.value
      let ex2 : QueryExecutor := ⟨tablesSet ex.tables table_name r.2⟩
      match r.1 with
      | .error e => (.error e, ex2)
      | .ok cnt =>
        (.ok (.message (toString cnt ++ " row(s) deleted from " ++ table_name)), ex2)
  | .createIndex table_name column_name =>
    match tablesGet ex.tables table_name with
    | none => (.error ("Table not found: " ++ table_name), ex)
    | some t =>
      let r := t.create_index column_name
      let ex2 : QueryExecutor := ⟨tablesSet ex.tables table_name r.2⟩
      match r.1 with
      | .error e => (.error e, ex2)
      | .ok _ =>
        (.ok (.message ("Index created on " ++ table_name ++ "." ++ column_name)), ex2)

/-! ### Sharding (`src/sharding/mod.rs`)

The `seahash::hash` function is an external crate; the router is embedded
parametrically in an arbitrary hash function `h` over the canonical byte
serialization (represented as the `String` the source builds its bytes
from), so every theorem below holds for the real seahash in particular. -/

/-- `ShardedDatabase` from `src/sharding/mod.rs`. -/
structure ShardedDatabase where
  shards : List QueryExecutor
  num_shards : Nat
deriving DecidableEq

/-- `ShardedDatabase::new` (the source panics on zero shards; theorems carry
`0 < n`). -/
def ShardedDatabase.new (n : Nat) : ShardedDatabase :=
  ⟨List.replicate n QueryExecutor.new, n⟩

/-- The per-tag byte serialization inside `ShardedDatabase::get_shard_id`
(for `Float` the source stringifies the raw scaled integer). -/
def serializeShardKey : Value → String
  | .integer i => toString i
  | .float f => toString f
  | .text s => s
  | .boolean b => if b then "true" else "false"
  | .null => "null"

/-- `ShardedDatabase::get_shard_id`: hash of the serialized value modulo the
shard count. -/
def ShardedDatabase.get_shard_id (h : String → Nat) (db : ShardedDatabase)
    (v : Value) : Nat :=
  h (serializeShardKey v) % db.num_shards

/-- The DDL broadcast loop (`for shard in &mut self.shards`), aborting at the
first failing shard. -/
def broadcast (q : Query) : List QueryExecutor →
    Except String Unit × List QueryExecutor
  | [] => (.ok (), [])
  | e :: rest =>
    let r := e.execute q
    match r.1 with
    | .error msg => (.error msg, r.2 :: rest)
    | .ok _ =>
      let rr := broadcast q rest
      (rr.1, r.2 :: rr.2)

/-- The scatter-gather loop of the unfiltered `SELECT`: concatenate rows from
every shard and keep the first non-empty column-name list. -/
def scatterGo (q : Query) (accRows : List Row) (accCols : List String) :
    List QueryExecutor → Except String (List Row × List String) × List QueryExecutor
  | [] => (.ok (accRows, accCols), [])
  | e :: rest =>
    let r := e.execute q
    match r.1 with
    | .error msg => (.error msg, r.2 :: rest)
    | .ok (.rows rs cols) =>
      let accCols2 := if accCols.isEmpty then cols else accCols
      let rr := scatterGo q (accRows ++ rs) accCols2 rest
      (rr.1, r.2 :: rr.2)
    | .ok _ =>
      let rr := scatterGo q accRows accCols rest
      (rr.1, r.2 :: rr.2)

/-- Dispatch to the shard at `sid` (`self.shards[shard_id].execute(query)`;
the out-of-range case is unreachable because `sid` is reduced modulo the
shard count). -/
def ShardedDatabase.execOn (db : ShardedDatabase) (sid : Nat) (q : Query) :
    Except String QueryResult × ShardedDatabase :=
  match db.shards[sid]? with
  | none => (.error "shard out of range", db)
  | some e =>
    let r := e.execute q
    (r.1, { db with shards := db.shards.set sid r.2 })

/-- `ShardedDatabase::execute` over the query IR (the source parses the SQL
text once per dispatch; the parser being deterministic, every dispatch sees
this same IR). -/
def ShardedDatabase.execute (h : String → Nat) (db : ShardedDatabase) (q : Query) :
    Except String QueryResult × ShardedDatabase :=
  match q with
  | .createTable _ _ =>
    let r := broadcast q db.shards
    match r.1 with
    | .error e => (.error e, { db with shards := r.2 })
    | .ok _ => (.ok (.message "Table created on all shards"), { db with shards := r.2 })
  | .createIndex _ _ =>
    let r := broadcast q db.shards
    match r.1 with
    | .error e => (.error e, { db with shards := r.2 })
    | .ok _ => (.ok (.message "Index created on all shards"), { db with shards := r.2 })
  | .insert _ values =>
    db.execOn (db.get_shard_id h (values.getD 0 .null)) q
  | .select _ (some w) =>
    db.execOn (db.get_shard_id h w.value) q
  | .select _ none =>
    let r := scatterGo q [] [] db.shards
    match r.1 with
    | .error e => (.error e, { db with shards := r.2 })
    | .ok (rows, cols) => (.ok (.rows rows cols), { db with shards := r.2 })
  | .update _ _ _ w =>
    db.execOn (db.get_shard_id h w.value) q
  | .delete _ w =>
    db.execOn (db.get_shard_id h w.value) q

/-- `ShardedDatabase::get_shard_stats` restricted to the row counts: the
`shard.get_table(name).map(row_count).unwrap_or(0)` of every shard. -/
def ShardedDatabase.shardRowCounts (db : ShardedDatabase) (nm : String) : List Nat :=
  db.shards.map (fun e =>
    match tablesGet e.tables nm with
    | some t => t.row_count
    | none => 0)

/-! ### Operation sequences and reachable table states

`Op` is one mutating `Table` call; `runOps` is the table reached from
`Table::new` after a sequence of such calls (failing calls leave the state
they returned, exactly as the Rust `&mut self` methods do). -/

/-- One mutating call on a `Table`. -/
inductive Op where
  | ins (values : List Value)
  | upd (where_column : String) (where_value : Value)
      (update_column : String) (update_value : Value)
  | del (column_name : String) (value : Value)
  | cidx (column_name : String)
deriving DecidableEq

/-- Apply one call, keeping the state it leaves behind. -/
def Table.applyOp (t : Table) : Op → Table
  | .ins vs => (t.insert vs).2
  | .upd wc wv uc uv => (t.update wc wv uc uv).2
  | .del c v => (t.delete c v).2
  | .cidx c => (t.create_index c).2

/-- The table reached from `Table::new name schema` by a call sequence. -/
def runOps (name : String) (schema : Schema) (ops : List Op) : Table :=
  ops.foldl Table.applyOp (Table.new name schema)

/-- Canonical page-list shape maintained by the page manager: page ids are
consecutive from `k`, every page has capacity 100, and every page but the
last is full. -/
inductive CanonPages : Nat → List Page → Prop where
  | nil (k : Nat) : CanonPages k []
  | last (k : Nat) (p : Page) : p.id = k → p.max_rows = 100 →
      p.rows.length ≤ 100 → CanonPages k [p]
  | cons (k : Nat) (p : Page) (ps : List Page) : p.id = k → p.max_rows = 100 →
      p.rows.length = 100 → CanonPages (k + 1) ps → CanonPages k (p :: ps)

/-- Sum of the row counts of a page list. -/
def pagesTotal (ps : List Page) : Nat :=
  (ps.map (fun p => p.rows.length)).sum

/-- The scan of a page list at capacity 100 (the shape `PageManager::scan`
takes on tables, whose page size is fixed at 100). -/
def pagesScan (ps : List Page) : List (Nat × Row) :=
  (ps.map (fun p => p.rows.enum.map (fun er => (p.id * 100 + er.1, er.2)))).flatten

/-- Well-formedness of every table reachable through the public API:
capacity 100, canonical pages, the next row id equals the stored row count,
the primary-key column (when present) is indexed, and every stored row has
schema arity. -/
def TWF (t : Table) : Prop :=
  t.page_manager.max_rows_per_page = 100 ∧
  CanonPages 0 t.page_manager.pages ∧
  t.next_row_id = t.page_manager.total_rows ∧
  (∀ pk_index, t.schema.get_primary_key_index = some pk_index →
    (idxGet t.indexes (t.schema.columns.getD pk_index default).name).isSome) ∧
  (∀ p ∈ t.page_manager.pages, ∀ r ∈ p.rows,
    r.values.length = t.schema.columns.length)

/-- `true` iff the indexes of a table contain, for column `c`, an entry with
key exactly `v` whose row-id list contains `id` (the entry-level membership
the index invariants quantify over). -/
def hasEntry (m : List (String × BTreeIndex)) (c : String) (v : Value)
    (id : Nat) : Bool :=
  match idxGet m c with
  | some ix => ix.tree.any (fun e => e.1 == v && decide (id ∈ e.2))
  | none => false

/-- Driving a sequence of `INSERT` statements through the router, stopping
at the first failure (the scenario of the scatter-gather property). -/
def insertAll (h : String → Nat) (nm : String) :
    ShardedDatabase → List (List Value) → Except String ShardedDatabase
  | db, [] => .ok db
  | db, vs :: rest =>
    let r := db.execute h (.insert nm vs)
    match r.1 with
    | .error e => .error e
    | .ok _ => insertAll h nm r.2 rest

/-- The partition a row is routed to: the hash of its first value's
serialization, modulo the shard count. -/
def shardOf (h : String → Nat) (n : Nat) (vs : List Value) : Nat :=
  h (serializeShardKey (vs.getD 0 .null)) % n

/-- The state of one partition's table after the rows `done` (in order) were
inserted into it: well-formed, scan equal to `done`, and a primary-key index
(on column 0) holding exactly the first values of `done`. -/
def tableInv (sch : Schema) (done : List (List Value)) (t : Table) : Prop :=
  TWF t ∧ t.schema = sch ∧
  t.page_manager.scan.map (fun pr => pr.2.values) = done ∧
  ∃ ix, idxGet t.indexes (sch.columns.getD 0 default).name = some ix ∧
    ∀ v, (ix.lookup v).isSome ↔ ∃ u ∈ done, idxCmp v (u.getD 0 .null) = .eq

/-- The router invariant: `n` shards, and shard `j` holds exactly the rows
of `done` routed to `j`. -/
def GlobalInv (h : String → Nat) (n : Nat) (nm : String) (sch : Schema)
    (db : ShardedDatabase) (done : List (List Value)) : Prop :=
  db.num_shards = n ∧ db.shards.length = n ∧
  ∀ j, j < n → ∃ tj, db.shards[j]? = some ⟨[(nm, tj)]⟩ ∧
    tableInv sch (done.filter (fun vs => shardOf h n vs = j)) tj

/-- The row list one shard contributes to a scatter-gather `SELECT` on table
`nm` (empty when the shard lacks the table). -/
def shardRows (nm : String) (e : QueryExecutor) : List Row :=
  match tablesGet e.tables nm with
  | some t => t.page_manager.scan.map (·.2)
  | none => []

/-- The column-name list one shard reports for table `nm`. -/
def shardCols (nm : String) (e : QueryExecutor) : List String :=
  match tablesGet e.tables nm with
  | some t => t.schema.columns.map (·.name)
  | none => []

/-! ### Concrete fixtures

The spec's end-to-end scenario table `t(id INTEGER PRIMARY KEY, name TEXT)`
with the rows `(1,"a")` and `(2,"c")`. -/

/-- Schema of the spec's end-to-end scenario table. -/
def demoSchema : Schema :=
  ⟨[⟨"id", .integer, true, false⟩, ⟨"name", .text, false, false⟩]⟩

/-- Fresh scenario table. -/
def demoTable0 : Table := Table.new "t" demoSchema

/-- Scenario table after inserting `(1,"a")`. -/
def demoTable1 : Table := (demoTable0.insert [.integer 1, .text "a"]).2

/-- Scenario table after additionally inserting `(2,"c")`. -/
def demoTable2 : Table := (demoTable1.insert [.integer 2, .text "c"]).2

/-- Scenario table after `DELETE FROM t WHERE id = 1`. -/
def demoTable2d : Table := (demoTable2.delete "id" (.integer 1)).2

/-- One-column schema `id INTEGER PRIMARY KEY`. -/
def oneColSchema : Schema := ⟨[⟨"id", .integer, true, false⟩]⟩

/-- An index over two integer keys, as in the source's own range-query test. -/
def demoIdx : BTreeIndex :=
  ((BTreeIndex.new "age").insert (.integer 25) 0).insert (.integer 30) 1

/-! ### C1 -/

/-- C1: the claim requires `delete` to remove each matched row from the Page
Store so that a subsequent unfiltered select returns the prior rows minus the
deleted ones and the row count drops by the count.  The code removes matched
rows only from the indexes (`Table::delete` never touches the `PageManager`):
on the spec's own scenario, deleting `id = 1` reports count 1, yet the
unfiltered select afterwards still returns both `(1,"a")` and `(2,"c")` and
the row count stays 2 instead of dropping to 1. -/
theorem C1_delete_never_removes_from_page_store :
    (demoTable2.delete "id" (.integer 1)).1 = .ok 1 ∧
    demoTable2.row_count = 2 ∧
    demoTable2d.select none none =
      .ok [⟨[.integer 1, .text "a"]⟩, ⟨[.integer 2, .text "c"]⟩] ∧
    demoTable2d.row_count = 2 :=
  ⟨rfl, rfl, rfl, rfl⟩

/-! ### C2 -/

/-- C2: the claim requires every index to map a value to exactly the row ids
whose current stored row holds it, at every point between operations.  After
`insert (1,"a")` followed by `delete where id = 1`, the stored row 0 still
holds `1` in the `id` column (the page store is never touched by delete),
while the `id` index no longer has any entry for `1`: the index-driven select
returns nothing although a full scan still yields the row. -/
theorem C2_index_diverges_from_store_after_delete :
    (demoTable1.delete "id" (.integer 1)).1 = .ok 1 ∧
    ((demoTable1.delete "id" (.integer 1)).2.select (some "id") (some (.integer 1)))
      = .ok [] ∧
    (idxGet (demoTable1.delete "id" (.integer 1)).2.indexes "id").map
      (fun ix => ix.lookup (.integer 1)) = some none ∧
    (demoTable1.delete "id" (.integer 1)).2.page_manager.scan
      = [(0, ⟨[.integer 1, .text "a"]⟩)] :=
  ⟨rfl, rfl, rfl, rfl⟩

/-! ### C5 -/

/-- C5 counterexample: the claim requires a range lookup with mismatched-tag
bounds to raise an "unsupported comparison" error and never silently return a
result.  No such error exists anywhere in `range_query`: `IndexKey::cmp`
coerces incomparable values to `Equal`, so a text/boolean bound pair over an
integer-keyed index passes the `BTreeMap` bound ordering check and silently
matches every entry - the query returns both row ids. -/
theorem C5_range_query_mismatched_tags_silently_returns :
    demoIdx.range_query (.text "a") (.boolean true) = .ok [0, 1] :=
  rfl

/-- C5 amended: the only failure `range_query` can raise is the
`BTreeMap::range` start-greater-than-end panic, which fires exactly when the
two bounds themselves compare `Greater` (possible only for same-tag,
comparable bounds); a bound whose tag differs from a key's is coerced to
`Equal` by `IndexKey::cmp`, so with non-panicking bounds that are
incomparable to every indexed key the query silently returns the row ids of
every entry in the index, never an "unsupported comparison" error. -/
theorem C5_amended_mismatched_tags_return_all_ids (ix : BTreeIndex)
    (mn mx : Value)
    (hkeys : ∀ e ∈ ix.tree, Value.compare e.1 mn = none ∧ Value.compare e.1 mx = none)
    (hbounds : idxCmp mn mx ≠ .gt) :
    ix.range_query mn mx = .ok ((ix.tree.map (·.2)).flatten) ∧
    (∀ a b : Value, idxCmp a b = .gt →
      ix.range_query a b
        = .error "range start is greater than range end in BTreeMap") := by
  constructor
  · have hmn : ix.tree.dropWhile (fun e => idxCmp e.1 mn = .lt) = ix.tree := by
      cases htr : ix.tree with
      | nil => rfl
      | cons e rest =>
        rw [List.dropWhile_cons]
        have : idxCmp e.1 mn = .eq := by
          have := (hkeys e (by rw [htr]; exact List.mem_cons_self e rest)).1
          simp [idxCmp, this]
        simp [this]
    have hmx : ix.tree.takeWhile (fun e => idxCmp e.1 mx ≠ .gt) = ix.tree := by
      apply List.takeWhile_eq_self_iff.mpr
      intro e he
      have : idxCmp e.1 mx = .eq := by
        have := (hkeys e he).2
        simp [idxCmp, this]
      simp [this]
    show btreeRange ix.tree mn mx = _
    unfold btreeRange
    rw [if_neg hbounds, hmn, hmx]
  · intro a b hab
    show btreeRange ix.tree a b = _
    unfold btreeRange
    rw [if_pos hab]

/-- Witness for the amended C5 theorem at the concrete fixture: a
text/boolean bound pair (coerced `Equal` against each other and against the
integer keys) over the integer-keyed index. -/
theorem C5_amended_witness :
    demoIdx.range_query (.text "a") (.boolean true)
        = .ok ((demoIdx.tree.map (·.2)).flatten) ∧
    (∀ a b : Value, idxCmp a b = .gt →
      demoIdx.range_query a b
        = .error "range start is greater than range end in BTreeMap") :=
  C5_amended_mismatched_tags_return_all_ids demoIdx (.text "a") (.boolean true)
    (by decide) (by decide)

/-! ### C6 -/

/-- C6 counterexample: the claim requires `insert` to reject a value list in
which some positional value's tag differs from the declared column type.  The
code validates only the arity: inserting the text value `"x"` into the single
`INTEGER PRIMARY KEY` column succeeds. -/
theorem C6_type_mismatch_is_accepted :
    ((Table.new "t" oneColSchema).insert [.text "x"]).1 = .ok 0 :=
  rfl

/-- C6 amended: `insert` rejects exactly the arity mismatches and primary-key
duplicates; positional type tags are never checked. -/
theorem C6_amended_insert_errors_are_arity_or_pk (t : Table) (vs : List Value) :
    (t.insert vs).1.isOk ↔
      (vs.length = t.schema.columns.length ∧ pkDup t vs = false) := by
  by_cases h1 : vs.length = t.schema.columns.length
  · by_cases h2 : pkDup t vs = true
    · simp [Table.insert, h1, h2, Except.isOk, Except.toBool]
    · simp only [Bool.not_eq_true] at h2
      simp [Table.insert, h1, h2, Except.isOk, Except.toBool]
  · simp [Table.insert, h1, Except.isOk, Except.toBool]

/-! ### C10 -/

/-- C10: the nullable flag is never enforced: any value list of matching
arity that passes the primary-key check is inserted successfully, even when a
`Null` occupies a column declared not-nullable; no null-constraint error
exists in the insert path. -/
theorem C10_nullable_never_enforced (t : Table) (vs : List Value) (i : Nat)
    (harity : vs.length = t.schema.columns.length)
    (hpk : pkDup t vs = false)
    (hi : i < t.schema.columns.length)
    (hnotnull : (t.schema.columns.getD i default).nullable = false)
    (hnull : vs.getD i .null = .null) :
    (t.insert vs).1 = .ok t.next_row_id := by
  simp [Table.insert, harity, hpk]

/-- Witness for C10: inserting `(1, NULL)` into
`t(id INTEGER PRIMARY KEY, name TEXT NOT NULL)` succeeds. -/
theorem C10_witness :
    ((Table.new "t" demoSchema).insert [.integer 1, .null]).1 = .ok 0 :=
  C10_nullable_never_enforced (Table.new "t" demoSchema) [.integer 1, .null] 1
    rfl rfl (by decide) rfl rfl

/-! ### Lemmas on the index order and the B-tree entry list -/

theorem idxCmp_self (v : Value) : idxCmp v v = .eq := by
  cases v <;> simp [idxCmp, Value.compare, compareOfLessAndEq]

theorem btreeLookup_insert_isSome (tr : List (Value × List Nat)) (v : Value)
    (id : Nat) : (btreeLookup (btreeInsert tr v id) v).isSome := by
  induction tr with
  | nil => simp [btreeInsert, btreeLookup, idxCmp_self]
  | cons e rest ih =>
    simp only [btreeInsert]
    rcases hc : idxCmp v e.1 with _ | _ | _
    · simp [btreeLookup, idxCmp_self]
    · simp [btreeLookup, hc]
    · simp [btreeLookup, hc, ih]

theorem btreeLookup_insert_of_none (tr : List (Value × List Nat)) (v : Value)
    (id : Nat) (h : btreeLookup tr v = none) :
    btreeLookup (btreeInsert tr v id) v = some [id] := by
  induction tr with
  | nil => simp [btreeInsert, btreeLookup, idxCmp_self]
  | cons e rest ih =>
    simp only [btreeLookup] at h
    rcases hc : idxCmp v e.1 with _ | _ | _
    · simp [btreeInsert, hc, btreeLookup, idxCmp_self]
    · simp [hc] at h
    · rw [hc] at h
      simp only [btreeInsert, hc]
      simp [btreeLookup, hc, ih h]

theorem btreeLookup_insert_isSome_iff (tr : List (Value × List Nat)) (v : Value)
    (id : Nat) (w : Value) (h : btreeLookup tr v = none) :
    (btreeLookup (btreeInsert tr v id) w).isSome ↔
      ((btreeLookup tr w).isSome ∨ idxCmp w v = .eq) := by
  induction tr with
  | nil =>
    simp only [btreeInsert, btreeLookup]
    rcases hw : idxCmp w v with _ | _ | _ <;> simp [hw]
  | cons e rest ih =>
    simp only [btreeLookup] at h
    rcases hc : idxCmp v e.1 with _ | _ | _
    · rw [hc] at h
      simp only [btreeInsert, hc]
      rcases hw : idxCmp w v with _ | _ | _ <;>
        rcases hwe : idxCmp w e.1 with _ | _ | _ <;>
          simp [btreeLookup, hw, hwe, h]
    · simp [hc] at h
    · rw [hc] at h
      simp only [btreeInsert, hc]
      rcases hwe : idxCmp w e.1 with _ | _ | _ <;>
        simp [btreeLookup, hwe, ih h]

theorem entryMem_btreeInsert_ne (tr : List (Value × List Nat)) (w : Value)
    (rid id : Nat) (hne : id ≠ rid) (v : Value) :
    (btreeInsert tr w rid).any (fun e => e.1 == v && decide (id ∈ e.2))
      = tr.any (fun e => e.1 == v && decide (id ∈ e.2)) := by
  induction tr with
  | nil => simp [btreeInsert, hne]
  | cons e rest ih =>
    simp only [btreeInsert]
    rcases hc : idxCmp w e.1 with _ | _ | _
    · simp [hne]
    · simp [List.mem_append, hne]
    · simp [ih]

theorem entryMem_btreeRemove_ne (tr : List (Value × List Nat)) (w : Value)
    (rid id : Nat) (hne : id ≠ rid) (v : Value) :
    (btreeRemove tr w rid).any (fun e => e.1 == v && decide (id ∈ e.2))
      = tr.any (fun e => e.1 == v && decide (id ∈ e.2)) := by
  induction tr with
  | nil => simp [btreeRemove]
  | cons e rest ih =>
    simp only [btreeRemove]
    rcases hc : idxCmp w e.1 with _ | _ | _
    · simp [ih]
    · show ((if (e.2.filter (fun x => x ≠ rid)).isEmpty then rest
            else (e.1, e.2.filter (fun x => x ≠ rid)) :: rest).any
              fun e => e.1 == v && decide (id ∈ e.2))
          = ((e :: rest).any fun e => e.1 == v && decide (id ∈ e.2))
      by_cases hemp : (e.2.filter (fun x => x ≠ rid)).isEmpty = true
      · rw [if_pos hemp]
        have hid : id ∉ e.2 := by
          intro hmem
          have h2 : id ∈ e.2.filter (fun x => x ≠ rid) := by
            simp [List.mem_filter, hmem, hne]
          rw [List.isEmpty_iff] at hemp
          rw [hemp] at h2
          simp at h2
        simp [hid]
      · rw [if_neg hemp]
        simp [List.mem_filter, hne]
    · simp [ih]

/-! ### Lemmas on the string-keyed index map -/

theorem idxGet_cons (x : String × BTreeIndex) (xs : List (String × BTreeIndex))
    (k' : String) :
    idxGet (x :: xs) k' = if x.1 = k' then some x.2 else idxGet xs k' := by
  by_cases h : x.1 = k' <;> simp [idxGet, List.find?_cons, h]

theorem idxModify_cons (x : String × BTreeIndex) (xs : List (String × BTreeIndex))
    (k : String) (f : BTreeIndex → BTreeIndex) :
    idxModify (x :: xs) k f
      = (if x.1 = k then (x.1, f x.2) else x) :: idxModify xs k f := by
  by_cases h : x.1 = k <;> simp [idxModify, h]

theorem idxGet_idxModify (m : List (String × BTreeIndex)) (k : String)
    (f : BTreeIndex → BTreeIndex) (k' : String) :
    idxGet (idxModify m k f) k'
      = if k' = k then (idxGet m k').map f else idxGet m k' := by
  induction m with
  | nil => by_cases h : k' = k <;> simp [idxGet, idxModify, h]
  | cons x xs ih =>
    rw [idxModify_cons]
    by_cases h1 : x.1 = k
    · rw [if_pos h1]
      by_cases h2 : x.1 = k'
      · have hk : k' = k := by rw [← h2, h1]
        simp [idxGet_cons, h2, hk]
      · simp [idxGet_cons, h2, ih]
    · rw [if_neg h1]
      by_cases h2 : x.1 = k'
      · have hk : ¬ (k' = k) := fun hh => h1 (by rw [h2, hh])
        simp [idxGet_cons, h2, hk]
      · simp [idxGet_cons, h2, ih]

theorem listModify_cons_zero {α : Type} (a : α) (l : List α) (f : α → α) :
    listModify (a :: l) 0 f = f a :: l := by
  simp [listModify]

theorem listModify_cons_succ {α : Type} (a : α) (l : List α) (i : Nat) (f : α → α) :
    listModify (a :: l) (i + 1) f = a :: listModify l i f := by
  unfold listModify
  cases h : l[i]? <;> simp [h]

theorem getElem?_listModify_self {α : Type} (l : List α) (i : Nat) (f : α → α) :
    (listModify l i f)[i]? = l[i]?.map f := by
  unfold listModify
  cases h : l[i]? with
  | none => simp [h]
  | some a =>
    have hi : i < l.length := by
      by_contra hge
      rw [List.getElem?_eq_none (by omega)] at h
      exact Option.noConfusion h
    simp [List.getElem?_set, hi, h]

theorem getElem?_listModify_ne {α : Type} (l : List α) (i : Nat) (f : α → α)
    (j : Nat) (h : j ≠ i) : (listModify l i f)[j]? = l[j]? := by
  unfold listModify
  cases hl : l[i]? with
  | none => rfl
  | some a => exact List.getElem?_set_ne (fun hh => h hh.symm)

theorem listModify_map_invariant {α β : Type} (l : List α) (i : Nat) (f : α → α)
    (g : α → β) (h : ∀ a, g (f a) = g a) : (listModify l i f).map g = l.map g := by
  induction l generalizing i with
  | nil => rfl
  | cons a l ih =>
    cases i with
    | zero => simp [listModify_cons_zero, h]
    | succ i => simp [listModify_cons_succ, ih]

/-! ### Page-manager lemmas -/

theorem pagesScan_cons (p : Page) (ps : List Page) :
    pagesScan (p :: ps)
      = p.rows.enum.map (fun er => (p.id * 100 + er.1, er.2)) ++ pagesScan ps := by
  simp [pagesScan]

theorem pagesScan_append (ps qs : List Page) :
    pagesScan (ps ++ qs) = pagesScan ps ++ pagesScan qs := by
  simp [pagesScan]

theorem mem_pagesScan (ps : List Page) (pr : Nat × Row) (h : pr ∈ pagesScan ps) :
    ∃ p ∈ ps, pr.2 ∈ p.rows := by
  induction ps with
  | nil => simp [pagesScan] at h
  | cons p ps ih =>
    rw [pagesScan_cons, List.mem_append] at h
    rcases h with h | h
    · obtain ⟨er, hmem, heq⟩ := List.mem_map.mp h
      refine ⟨p, List.mem_cons_self p ps, ?_⟩
      have : er.2 ∈ p.rows := by
        rcases er with ⟨i, x⟩
        have := List.mk_mem_enumFrom_iff_le_and_getElem?_sub.mp (by simpa [List.enum] using hmem)
        exact List.getElem?_mem (by simpa using this.2)
      rw [← heq]
      exact this
    · obtain ⟨q, hq, hmem⟩ := ih h
      exact ⟨q, List.mem_cons_of_mem p hq, hmem⟩

theorem scan_eq_pagesScan (pm : PageManager) (hmax : pm.max_rows_per_page = 100) :
    pm.scan = pagesScan pm.pages := by
  simp [PageManager.scan, pagesScan, hmax]

theorem total_eq_pagesTotal (pm : PageManager) :
    pm.total_rows = pagesTotal pm.pages := rfl

theorem rowId_div_mod_inj (m a b : Nat) (h1 : a / m = b / m) (h2 : a % m = b % m) :
    a = b := by
  have ha := Nat.div_add_mod a m
  have hb := Nat.div_add_mod b m
  rw [h1] at ha
  omega

theorem get_setRow_self (pm : PageManager) (id : Nat) (r : Row) :
    (pm.setRow id r).get id = (pm.get id).map (fun _ => r) := by
  unfold PageManager.get PageManager.setRow
  simp only [getElem?_listModify_self]
  cases hp : pm.pages[id / pm.max_rows_per_page]? with
  | none => simp [hp]
  | some p =>
    show ((p.rows.set (id % pm.max_rows_per_page) r)[id % pm.max_rows_per_page]?)
      = (p.rows[id % pm.max_rows_per_page]?).map fun _ => r
    cases hr : p.rows[id % pm.max_rows_per_page]? with
    | none =>
      have : p.rows.length ≤ id % pm.max_rows_per_page := by
        by_contra hlt
        rw [List.getElem?_eq_getElem (by omega)] at hr
        exact Option.noConfusion hr
      simp [List.getElem?_set, this]
    | some x =>
      have : id % pm.max_rows_per_page < p.rows.length := by
        by_contra hge
        rw [List.getElem?_eq_none (by omega)] at hr
        exact Option.noConfusion hr
      simp [List.getElem?_set, this]

theorem get_setRow_ne (pm : PageManager) (id : Nat) (r : Row) (id' : Nat)
    (h : id' ≠ id) : (pm.setRow id r).get id' = pm.get id' := by
  unfold PageManager.get PageManager.setRow
  by_cases hpage : id' / pm.max_rows_per_page = id / pm.max_rows_per_page
  · have hslot : id' % pm.max_rows_per_page ≠ id % pm.max_rows_per_page := by
      intro hs
      exact h (rowId_div_mod_inj pm.max_rows_per_page id' id hpage hs)
    rw [hpage]
    simp only [getElem?_listModify_self]
    cases hp : pm.pages[id / pm.max_rows_per_page]? with
    | none => simp [hp]
    | some p =>
      show ((p.rows.set (id % pm.max_rows_per_page) r)[id' % pm.max_rows_per_page]?)
        = (p.rows[id' % pm.max_rows_per_page]?)
      exact List.getElem?_set_ne (fun hh => hslot hh.symm)
  · simp only [getElem?_listModify_ne _ _ _ _ hpage]

theorem get_setRow_isSome (pm : PageManager) (id : Nat) (r : Row) (id' : Nat) :
    ((pm.setRow id r).get id').isSome = (pm.get id').isSome := by
  by_cases h : id' = id
  · subst h
    rw [get_setRow_self]
    cases pm.get id' <;> simp
  · rw [get_setRow_ne pm id r id' h]

theorem total_setRow (pm : PageManager) (id : Nat) (r : Row) :
    (pm.setRow id r).total_rows = pm.total_rows := by
  unfold PageManager.total_rows PageManager.setRow
  simp only
  rw [listModify_map_invariant]
  intro p
  simp

theorem max_setRow (pm : PageManager) (id : Nat) (r : Row) :
    (pm.setRow id r).max_rows_per_page = pm.max_rows_per_page := rfl

theorem canonPages_listModify_set (k : Nat) (ps : List Page) (h : CanonPages k ps)
    (i j : Nat) (r : Row) :
    CanonPages k (listModify ps i (fun p => { p with rows := p.rows.set j r })) := by
  induction h generalizing i with
  | nil => exact CanonPages.nil _
  | last k p hid hmax hlen =>
    cases i with
    | zero =>
      rw [listModify_cons_zero]
      exact CanonPages.last k _ hid hmax (by simpa using hlen)
    | succ i =>
      rw [listModify_cons_succ]
      have h0 : listModify ([] : List Page) i
          (fun p => { p with rows := p.rows.set j r }) = [] := rfl
      rw [h0]
      exact CanonPages.last k p hid hmax hlen
  | cons k p ps hid hmax hlen hps ih =>
    cases i with
    | zero =>
      rw [listModify_cons_zero]
      exact CanonPages.cons k _ ps hid hmax (by simpa using hlen) hps
    | succ i =>
      rw [listModify_cons_succ]
      exact CanonPages.cons k p _ hid hmax hlen (ih i)

theorem mem_rows_listModify_set (ps : List Page) (i j : Nat) (r : Row)
    (p' : Page) (hp : p' ∈ listModify ps i (fun p => { p with rows := p.rows.set j r }))
    (x : Row) (hx : x ∈ p'.rows) :
    (∃ q ∈ ps, x ∈ q.rows) ∨ x = r := by
  unfold listModify at hp
  cases hl : ps[i]? with
  | none =>
    rw [hl] at hp
    exact Or.inl ⟨p', hp, hx⟩
  | some p =>
    rw [hl] at hp
    rcases List.mem_or_eq_of_mem_set hp with hmem | heq
    · exact Or.inl ⟨p', hmem, hx⟩
    · rw [heq] at hx
      rcases List.mem_or_eq_of_mem_set hx with hmem | heq2
      · exact Or.inl ⟨p, List.getElem?_mem hl, hmem⟩
      · exact Or.inr heq2

theorem setRow_pages (pm : PageManager) (id : Nat) (r : Row) :
    (pm.setRow id r).pages = listModify pm.pages (id / pm.max_rows_per_page)
      (fun p => { p with rows := p.rows.set (id % pm.max_rows_per_page) r }) := rfl

theorem pagesTotal_nil : pagesTotal [] = 0 := rfl

theorem pagesTotal_cons (p : Page) (ps : List Page) :
    pagesTotal (p :: ps) = p.rows.length + pagesTotal ps := by
  simp [pagesTotal]

theorem pagesTotal_append (ps qs : List Page) :
    pagesTotal (ps ++ qs) = pagesTotal ps + pagesTotal qs := by
  simp [pagesTotal]

theorem pagesInsert_none_facts (ps : List Page) (r : Row) (k : Nat)
    (h : CanonPages k ps) :
    pagesInsert ps r = none →
      pagesTotal ps = 100 * ps.length ∧ (∀ p ∈ ps, p.rows.length = 100) := by
  induction h with
  | nil => intro _; simp [pagesTotal]
  | last k p hid hmax hlen =>
    intro hnone
    by_cases hf : p.is_full = true
    · have hge : p.rows.length ≥ 100 := by
        simpa [Page.is_full, hmax] using hf
      have hfull : p.rows.length = 100 := le_antisymm hlen hge
      refine ⟨by simp [pagesTotal, hfull], ?_⟩
      intro q hq
      rw [List.mem_singleton.mp hq]
      exact hfull
    · simp [pagesInsert, hf] at hnone
  | cons k p ps hid hmax hlen hps ih =>
    intro hnone
    have hf : p.is_full = true := by simp [Page.is_full, hmax, hlen]
    cases hrec : pagesInsert ps r with
    | some x =>
      rcases x with ⟨pos, rest2⟩
      simp [pagesInsert, hf, hrec] at hnone
    | none =>
      obtain ⟨ht, hall⟩ := ih hrec
      refine ⟨?_, ?_⟩
      · rw [pagesTotal_cons, ht, hlen]
        simp [List.length_cons]
        ring
      · intro q hq
        rcases List.mem_cons.mp hq with heq | hq2
        · rw [heq]; exact hlen
        · exact hall q hq2

theorem pagesInsert_some_facts (ps : List Page) (r : Row) (k : Nat)
    (h : CanonPages k ps) :
    ∀ pos ps2, pagesInsert ps r = some (pos, ps2) →
      k ≤ pos.1 ∧ pos.2 < 100 ∧ pos.1 * 100 + pos.2 = 100 * k + pagesTotal ps ∧
      CanonPages k ps2 ∧ pagesTotal ps2 = pagesTotal ps + 1 ∧
      pagesScan ps2 = pagesScan ps ++ [(pos.1 * 100 + pos.2, r)] ∧
      (∃ p2, ps2[pos.1 - k]? = some p2 ∧ p2.rows[pos.2]? = some r) ∧
      (∀ p ∈ ps2, ∀ x ∈ p.rows, (∃ q ∈ ps, x ∈ q.rows) ∨ x = r) := by
  induction h with
  | nil => intro pos ps2 hsome; simp [pagesInsert] at hsome
  | last k p hid hmax hlen =>
    intro pos ps2 hsome
    by_cases hf : p.is_full = true
    · simp [pagesInsert, hf] at hsome
    · have hlt : p.rows.length < 100 := by
        simp [Page.is_full, hmax] at hf
        omega
      have hins : (p.insert r).2 = { p with rows := p.rows ++ [r] } := by
        simp [Page.insert, hf]
      simp only [pagesInsert, hf, Bool.false_eq_true, if_false, hins] at hsome
      rw [Option.some.injEq, Prod.mk.injEq] at hsome
      obtain ⟨hpos, hps2⟩ := hsome
      subst hps2
      rw [← hpos]
      refine ⟨le_of_eq hid.symm, by simpa using hlt, ?_, ?_, ?_, ?_, ?_, ?_⟩
      · rw [hid, pagesTotal_cons, pagesTotal_nil]
        ring
      · exact CanonPages.last k _ (by simpa using hid) (by simpa using hmax)
          (by simp; omega)
      · rw [pagesTotal_cons, pagesTotal_cons, pagesTotal_nil]
        simp
      · rw [pagesScan_cons, pagesScan_cons]
        simp only [List.enum_append, List.map_append, pagesScan]
        simp [List.enumFrom_cons, hid]
      · refine ⟨{ p with rows := p.rows ++ [r] }, ?_, ?_⟩
        · rw [hid]
          simp
        · simpa using List.getElem?_concat_length p.rows r
      · intro q hq x hx
        rw [List.mem_singleton.mp hq] at hx
        simp only [List.mem_append, List.mem_singleton] at hx
        rcases hx with hx | hx
        · exact Or.inl ⟨p, by simp, hx⟩
        · exact Or.inr hx
  | cons k p ps hid hmax hlen hps ih =>
    intro pos ps2 hsome
    have hf : p.is_full = true := by simp [Page.is_full, hmax, hlen]
    cases hrec : pagesInsert ps r with
    | none => simp [pagesInsert, hf, hrec] at hsome
    | some x =>
      rcases x with ⟨pos', rest2⟩
      have hsome2 : some (pos', p :: rest2) = some (pos, ps2) := by
        rw [← hsome]
        simp [pagesInsert, hf, hrec]
      rw [Option.some.injEq, Prod.mk.injEq] at hsome2
      obtain ⟨hpos, hps2⟩ := hsome2
      subst hpos
      subst hps2
      obtain ⟨h1, h2, h3, h4, h5, h6, h7, h8⟩ := ih pos' rest2 hrec
      refine ⟨by omega, h2, ?_, ?_, ?_, ?_, ?_, ?_⟩
      · rw [h3, pagesTotal_cons, hlen]
        ring
      · exact CanonPages.cons k p rest2 hid hmax hlen h4
      · rw [pagesTotal_cons, pagesTotal_cons, h5]
        omega
      · rw [pagesScan_cons, pagesScan_cons, h6, List.append_assoc]
      · obtain ⟨p2, hp2, hr2⟩ := h7
        refine ⟨p2, ?_, hr2⟩
        have hs : pos'.1 - k = (pos'.1 - (k + 1)) + 1 := by omega
        rw [hs]
        simpa using hp2
      · intro q hq x hx
        rcases List.mem_cons.mp hq with heq | hq2
        · exact Or.inl ⟨p, List.mem_cons_self _ _, heq ▸ hx⟩
        · rcases h8 q hq2 x hx with ⟨q2, hq2m, hx2⟩ | heq
          · exact Or.inl ⟨q2, List.mem_cons_of_mem p hq2m, hx2⟩
          · exact Or.inr heq

theorem canonPages_append_full (k : Nat) (ps : List Page) (h : CanonPages k ps) :
    ∀ pnew : Page, (∀ p ∈ ps, p.rows.length = 100) →
      pnew.id = k + ps.length → pnew.max_rows = 100 → pnew.rows.length ≤ 100 →
      CanonPages k (ps ++ [pnew]) := by
  induction h with
  | nil kk =>
    intro pnew _ hid hmax hlen
    simpa using CanonPages.last kk pnew (by simpa using hid) hmax hlen
  | last kk p hid' hmax' hlen' =>
    intro pnew hall hid hmax hlen
    exact CanonPages.cons kk p [pnew] hid' hmax' (hall p (by simp))
      (CanonPages.last (kk + 1) pnew (by rw [hid]; simp) hmax hlen)
  | cons kk p ps hid' hmax' hlen' hps ih =>
    intro pnew hall hid hmax hlen
    refine CanonPages.cons kk p (ps ++ [pnew]) hid' hmax' hlen' ?_
    exact ih pnew (fun q hq => hall q (List.mem_cons_of_mem p hq))
      (by rw [hid, List.length_cons]; omega) hmax hlen

/-- The behaviour of `PageManager::insert` on a well-formed manager: the
reported position encodes the current row count, the shape is preserved, the
scan is extended by exactly the new row, and the new row is retrievable at
the encoded identifier. -/
theorem pm_insert_facts (pm : PageManager) (r : Row)
    (hmax : pm.max_rows_per_page = 100) (hcanon : CanonPages 0 pm.pages) :
    (pm.insert r).1.1 * 100 + (pm.insert r).1.2 = pm.total_rows ∧
    (pm.insert r).1.2 < 100 ∧
    ((pm.insert r).2).max_rows_per_page = 100 ∧
    CanonPages 0 ((pm.insert r).2).pages ∧
    ((pm.insert r).2).total_rows = pm.total_rows + 1 ∧
    ((pm.insert r).2).scan = pm.scan ++ [(pm.total_rows, r)] ∧
    ((pm.insert r).2).get pm.total_rows = some r ∧
    (∀ p ∈ ((pm.insert r).2).pages, ∀ x ∈ p.rows,
      (∃ q ∈ pm.pages, x ∈ q.rows) ∨ x = r) := by
  cases hins : pagesInsert pm.pages r with
  | some x =>
    rcases x with ⟨pos, pages2⟩
    have hres : pm.insert r = (pos, ⟨pages2, pm.max_rows_per_page⟩) := by
      simp [PageManager.insert, hins]
    obtain ⟨h1, h2, h3, h4, h5, h6, h7, h8⟩ :=
      pagesInsert_some_facts pm.pages r 0 hcanon pos pages2 hins
    rw [hres]
    have htot : pm.total_rows = pos.1 * 100 + pos.2 := by
      rw [total_eq_pagesTotal]
      omega
    have hdiv : pm.total_rows / 100 = pos.1 := by omega
    have hmod : pm.total_rows % 100 = pos.2 := by omega
    refine ⟨htot.symm, h2, hmax, h4, ?_, ?_, ?_, h8⟩
    · show pagesTotal pages2 = pm.total_rows + 1
      rw [h5, total_eq_pagesTotal]
    · show (PageManager.mk pages2 pm.max_rows_per_page).scan = _
      rw [scan_eq_pagesScan _ (by simpa using hmax),
        scan_eq_pagesScan pm hmax, h6, htot]
    · obtain ⟨p2, hp2, hr2⟩ := h7
      show (PageManager.mk pages2 pm.max_rows_per_page).get pm.total_rows = some r
      unfold PageManager.get
      simp only [hmax, hdiv, hmod]
      rw [show pages2[pos.1]? = some p2 by simpa using hp2]
      simpa using hr2
  | none =>
    obtain ⟨ht, hall⟩ := pagesInsert_none_facts pm.pages r 0 hcanon hins
    have hnew : ((Page.new pm.pages.length pm.max_rows_per_page).insert r).2
        = Page.mk pm.pages.length [r] 100 := by
      simp [Page.new, Page.insert, Page.is_full, hmax]
    have hres : pm.insert r = ((pm.pages.length, 0),
        ⟨pm.pages ++ [Page.mk pm.pages.length [r] 100], pm.max_rows_per_page⟩) := by
      simp [PageManager.insert, hins, hnew]
    rw [hres]
    have htot : pm.total_rows = 100 * pm.pages.length := by
      rw [total_eq_pagesTotal, ht]
    refine ⟨?_, ?_, hmax, ?_, ?_, ?_, ?_, ?_⟩
    · show pm.pages.length * 100 + 0 = pm.total_rows
      rw [htot]
      ring
    · show (0 : Nat) < 100
      omega
    · exact canonPages_append_full 0 pm.pages hcanon _ hall (by simp) rfl (by simp)
    · show pagesTotal (pm.pages ++ [Page.mk pm.pages.length [r] 100])
        = pm.total_rows + 1
      rw [pagesTotal_append, total_eq_pagesTotal]
      simp [pagesTotal]
    · show (PageManager.mk _ pm.max_rows_per_page).scan = _
      rw [scan_eq_pagesScan _ (by simpa using hmax), scan_eq_pagesScan pm hmax,
        pagesScan_append, htot]
      simp [pagesScan, List.enum_cons]
      ring
    · show (PageManager.mk _ pm.max_rows_per_page).get pm.total_rows = some r
      unfold PageManager.get
      have hdiv : pm.total_rows / 100 = pm.pages.length := by omega
      have hmod : pm.total_rows % 100 = 0 := by omega
      simp only [hmax, hdiv, hmod]
      rw [show (pm.pages ++ [Page.mk pm.pages.length [r] 100])[pm.pages.length]?
        = some (Page.mk pm.pages.length [r] 100) from List.getElem?_concat_length _ _]
      rfl
    · intro p hp x hx
      rcases List.mem_append.mp hp with hp1 | hp2
      · exact Or.inl ⟨p, hp1, hx⟩
      · rw [List.mem_singleton.mp hp2] at hx
        simp at hx
        exact Or.inr hx

theorem hasEntry_idxModify_ne (m : List (String × BTreeIndex)) (k : String)
    (f : BTreeIndex → BTreeIndex) (v : Value) (id : Nat)
    (hf : ∀ ix, (f ix).tree.any (fun e => e.1 == v && decide (id ∈ e.2))
      = ix.tree.any (fun e => e.1 == v && decide (id ∈ e.2))) (c : String) :
    hasEntry (idxModify m k f) c v id = hasEntry m c v id := by
  unfold hasEntry
  rw [idxGet_idxModify]
  by_cases hc : c = k
  · rcases hg : idxGet m c with _ | ix <;> simp [hc, hg, hf]
  · simp [hc]

/-! ### Preservation of well-formedness by every table operation -/

theorem foldl_invariant {α β : Type} (P : β → Prop) (f : β → α → β) (l : List α)
    (b : β) (h0 : P b) (hstep : ∀ b a, P b → P (f b a)) : P (l.foldl f b) := by
  induction l generalizing b with
  | nil => exact h0
  | cons a l ih => exact ih (f b a) (hstep b a h0)

theorem idxGet_isSome_foldl_idxModify {β : Type} (L : List β) (key : β → String)
    (g : β → BTreeIndex → BTreeIndex) (m : List (String × BTreeIndex)) (c : String) :
    (idxGet (L.foldl (fun m cv => idxModify m (key cv) (g cv)) m) c).isSome
      = (idxGet m c).isSome := by
  induction L generalizing m with
  | nil => rfl
  | cons a L ih =>
    rw [List.foldl_cons, ih, idxGet_idxModify]
    by_cases h : c = key a
    · simp [h]
    · simp [h]

theorem pm_get_mem (pm : PageManager) (id : Nat) (row : Row)
    (h : pm.get id = some row) : ∃ p ∈ pm.pages, row ∈ p.rows := by
  unfold PageManager.get at h
  cases hp : pm.pages[id / pm.max_rows_per_page]? with
  | none => rw [hp] at h; exact Option.noConfusion h
  | some p =>
    rw [hp] at h
    exact ⟨p, List.getElem?_mem hp, List.getElem?_mem h⟩

theorem insert_ok_parts (t : Table) (vs : List Value)
    (hok : (t.insert vs).1.isOk) :
    vs.length = t.schema.columns.length ∧ pkDup t vs = false ∧
    (t.insert vs).1 = .ok t.next_row_id ∧
    (t.insert vs).2 = { t with
      page_manager := (t.page_manager.insert ⟨vs⟩).2,
      next_row_id := t.next_row_id + 1,
      indexes := updateIndexesOnInsert t.schema t.indexes vs t.next_row_id } := by
  by_cases h1 : vs.length = t.schema.columns.length
  · by_cases h2 : pkDup t vs = true
    · exfalso
      simp [Table.insert, h1, h2, Except.isOk, Except.toBool] at hok
    · simp only [Bool.not_eq_true] at h2
      exact ⟨h1, h2, by simp [Table.insert, h1, h2], by simp [Table.insert, h1, h2]⟩
  · exfalso
    simp [Table.insert, h1, Except.isOk, Except.toBool] at hok

theorem insert_snd_cases (t : Table) (vs : List Value) :
    (t.insert vs).2 = t ∨
    ((t.insert vs).1.isOk ∧ (t.insert vs).2 = { t with
      page_manager := (t.page_manager.insert ⟨vs⟩).2,
      next_row_id := t.next_row_id + 1,
      indexes := updateIndexesOnInsert t.schema t.indexes vs t.next_row_id }) := by
  by_cases h1 : vs.length = t.schema.columns.length
  · by_cases h2 : pkDup t vs = true
    · exact Or.inl (by simp [Table.insert, h1, h2])
    · simp only [Bool.not_eq_true] at h2
      exact Or.inr ⟨by simp [Table.insert, h1, h2, Except.isOk, Except.toBool],
        by simp [Table.insert, h1, h2]⟩
  · exact Or.inl (by simp [Table.insert, h1])

theorem TWF_insert (t : Table) (vs : List Value) (h : TWF t) :
    TWF (t.insert vs).2 := by
  rcases insert_snd_cases t vs with heq | ⟨hok, heq⟩
  · rw [heq]; exact h
  · obtain ⟨harity, _, _, _⟩ := insert_ok_parts t vs hok
    obtain ⟨hmax, hcanon, hnext, hpk, hconf⟩ := h
    obtain ⟨f1, f2, f3, f4, f5, f6, f7, f8⟩ :=
      pm_insert_facts t.page_manager ⟨vs⟩ hmax hcanon
    rw [heq]
    refine ⟨f3, f4, ?_, ?_, ?_⟩
    · show t.next_row_id + 1 = _
      rw [f5, hnext]
    · intro pk_index hpkidx
      show (idxGet (updateIndexesOnInsert t.schema t.indexes vs t.next_row_id)
        (t.schema.columns.getD pk_index default).name).isSome
      unfold updateIndexesOnInsert
      rw [idxGet_isSome_foldl_idxModify]
      exact hpk pk_index hpkidx
    · intro p hp x hx
      rcases f8 p hp x hx with ⟨q, hq, hxq⟩ | hxr
      · exact hconf q hq x hxq
      · rw [hxr]
        exact harity

theorem updateOne_parts (uci : Nat) (uc : String) (uv : Value)
    (acc : Nat × Table) (rid : Nat) :
    (updateOne uci uc uv acc rid).2.schema = acc.2.schema ∧
    (updateOne uci uc uv acc rid).2.next_row_id = acc.2.next_row_id ∧
    (updateOne uci uc uv acc rid).2.name = acc.2.name := by
  unfold updateOne
  cases hget : acc.2.page_manager.get rid <;> simp [hget]

theorem updateOne_red_none (uci : Nat) (uc : String) (uv : Value)
    (acc : Nat × Table) (rid : Nat)
    (hget : acc.2.page_manager.get rid = none) :
    updateOne uci uc uv acc rid = acc := by
  simp [updateOne, hget]

theorem updateOne_red_some (uci : Nat) (uc : String) (uv : Value)
    (acc : Nat × Table) (rid : Nat) (row : Row)
    (hget : acc.2.page_manager.get rid = some row) :
    updateOne uci uc uv acc rid = (acc.1 + 1, { acc.2 with
      page_manager := acc.2.page_manager.setRow rid ⟨row.values.set uci uv⟩,
      indexes := idxModify (idxModify acc.2.indexes uc
        (fun ix => ix.remove (row.values.getD uci .null) rid)) uc
        (fun ix => ix.insert uv rid) }) := by
  simp [updateOne, hget]

theorem TWF_updateOne (uci : Nat) (uc : String) (uv : Value)
    (acc : Nat × Table) (rid : Nat) (h : TWF acc.2) :
    TWF (updateOne uci uc uv acc rid).2 := by
  obtain ⟨hmax, hcanon, hnext, hpk, hconf⟩ := h
  cases hget : acc.2.page_manager.get rid with
  | none =>
    rw [updateOne_red_none uci uc uv acc rid hget]
    exact ⟨hmax, hcanon, hnext, hpk, hconf⟩
  | some row =>
    rw [updateOne_red_some uci uc uv acc rid row hget]
    refine ⟨hmax, ?_, ?_, ?_, ?_⟩
    · show CanonPages 0 (acc.2.page_manager.setRow rid _).pages
      rw [setRow_pages]
      exact canonPages_listModify_set 0 _ hcanon _ _ _
    · show acc.2.next_row_id = (acc.2.page_manager.setRow rid _).total_rows
      rw [total_setRow]
      exact hnext
    · intro pk_index hpkidx
      have hsome := hpk pk_index hpkidx
      show (idxGet (idxModify (idxModify acc.2.indexes uc
          (fun ix => ix.remove (row.values.getD uci .null) rid)) uc
          (fun ix => ix.insert uv rid))
        (acc.2.schema.columns.getD pk_index default).name).isSome
      rw [idxGet_idxModify, idxGet_idxModify]
      simp only [List.getD_eq_getElem?_getD] at hsome ⊢
      by_cases hc : (acc.2.schema.columns[pk_index]?.getD default).name = uc
      · rw [hc] at hsome
        simp [hc, hsome]
      · simp [hc, hsome]
    · intro p hp x hx
      rw [show ({ acc.2 with
          page_manager := acc.2.page_manager.setRow rid ⟨row.values.set uci uv⟩,
          indexes := idxModify (idxModify acc.2.indexes uc
            (fun ix => ix.remove (row.values.getD uci .null) rid)) uc
            (fun ix => ix.insert uv rid) } : Table).page_manager.pages
        = (acc.2.page_manager.setRow rid ⟨row.values.set uci uv⟩).pages from rfl,
        setRow_pages] at hp
      rcases mem_rows_listModify_set _ _ _ _ p hp x hx with ⟨q, hq, hxq⟩ | hxr
      · exact hconf q hq x hxq
      · rw [hxr]
        show (row.values.set uci uv).length = _
        rw [List.length_set]
        obtain ⟨q, hq, hrowq⟩ := pm_get_mem acc.2.page_manager rid row hget
        exact hconf q hq row hrowq

theorem TWF_update (t : Table) (wc : String) (wv : Value) (uc : String)
    (uv : Value) (h : TWF t) : TWF (t.update wc wv uc uv).2 := by
  unfold Table.update
  cases t.schema.get_column_index wc with
  | none => exact h
  | some wci =>
    cases t.schema.get_column_index uc with
    | none => exact h
    | some uci =>
      simp only
      exact foldl_invariant (fun acc => TWF acc.2) _ _ (0, t) h
        (fun b a hb => TWF_updateOne uci uc uv b a hb)

theorem deleteOne_parts (sch : Schema) (acc : Table) (rid : Nat) :
    (deleteOne sch acc rid).schema = acc.schema ∧
    (deleteOne sch acc rid).page_manager = acc.page_manager ∧
    (deleteOne sch acc rid).next_row_id = acc.next_row_id ∧
    (deleteOne sch acc rid).name = acc.name := by
  unfold deleteOne
  cases hget : acc.page_manager.get rid <;> simp [hget]

theorem deleteOne_red_none (sch : Schema) (acc : Table) (rid : Nat)
    (hget : acc.page_manager.get rid = none) : deleteOne sch acc rid = acc := by
  simp [deleteOne, hget]

theorem deleteOne_red_some (sch : Schema) (acc : Table) (rid : Nat) (row : Row)
    (hget : acc.page_manager.get rid = some row) :
    deleteOne sch acc rid = { acc with
      indexes := row.values.enum.foldl (fun m cv =>
        idxModify m (sch.columns.getD cv.1 default).name
          (fun ix => ix.remove cv.2 rid)) acc.indexes } := by
  simp [deleteOne, hget]

theorem TWF_deleteOne (sch : Schema) (acc : Table) (rid : Nat) (h : TWF acc) :
    TWF (deleteOne sch acc rid) := by
  obtain ⟨hmax, hcanon, hnext, hpk, hconf⟩ := h
  cases hget : acc.page_manager.get rid with
  | none =>
    rw [deleteOne_red_none sch acc rid hget]
    exact ⟨hmax, hcanon, hnext, hpk, hconf⟩
  | some row =>
    rw [deleteOne_red_some sch acc rid row hget]
    refine ⟨hmax, hcanon, hnext, ?_, hconf⟩
    intro pk_index hpkidx
    show (idxGet (row.values.enum.foldl _ acc.indexes) _).isSome
    rw [idxGet_isSome_foldl_idxModify]
    exact hpk pk_index hpkidx

theorem TWF_delete (t : Table) (c : String) (v : Value) (h : TWF t) :
    TWF (t.delete c v).2 := by
  unfold Table.delete
  cases t.schema.get_column_index c with
  | none => exact h
  | some ci =>
    simp only
    exact foldl_invariant TWF _ _ t h (fun b a hb => TWF_deleteOne t.schema b a hb)

theorem idxGet_isSome_append (m : List (String × BTreeIndex))
    (x : String × BTreeIndex) (c : String) (h : (idxGet m c).isSome) :
    (idxGet (m ++ [x]) c).isSome := by
  induction m with
  | nil => simp [idxGet] at h
  | cons e rest ih =>
    rw [List.cons_append, idxGet_cons]
    rw [idxGet_cons] at h
    by_cases he : e.1 = c
    · simp [he]
    · rw [if_neg he] at h
      rw [if_neg he]
      exact ih h

theorem create_index_snd_cases (t : Table) (c : String) :
    (t.create_index c).2 = t ∨
    ∃ ix, (t.create_index c).2 = { t with indexes := t.indexes ++ [(c, ix)] } := by
  unfold Table.create_index
  cases t.schema.get_column_index c with
  | none => exact Or.inl rfl
  | some ci =>
    by_cases hc : (idxGet t.indexes c).isSome
    · simp [hc]
    · simp [hc]

theorem TWF_create_index (t : Table) (c : String) (h : TWF t) :
    TWF (t.create_index c).2 := by
  rcases create_index_snd_cases t c with heq | ⟨ix, heq⟩
  · rw [heq]; exact h
  · obtain ⟨hmax, hcanon, hnext, hpk, hconf⟩ := h
    rw [heq]
    refine ⟨hmax, hcanon, hnext, ?_, hconf⟩
    intro pk_index hpkidx
    exact idxGet_isSome_append _ _ _ (hpk pk_index hpkidx)

theorem TWF_applyOp (t : Table) (op : Op) (h : TWF t) : TWF (t.applyOp op) := by
  cases op with
  | ins vs => exact TWF_insert t vs h
  | upd wc wv uc uv => exact TWF_update t wc wv uc uv h
  | del c v => exact TWF_delete t c v h
  | cidx c => exact TWF_create_index t c h

theorem getD_eq_getElem_of_lt {α : Type} [Inhabited α] (l : List α) (i : Nat)
    (h : i < l.length) : l.getD i default = l[i] := by
  rw [List.getD_eq_getElem?_getD, List.getElem?_eq_getElem h]
  rfl

theorem pk_index_lt (sch : Schema) (pk : Nat)
    (h : sch.get_primary_key_index = some pk) : pk < sch.columns.length :=
  (List.findIdx?_eq_some_iff_findIdx_eq.mp h).1

theorem get_column_index_of_name_mem (sch : Schema) (c : Column)
    (hmem : c ∈ sch.columns) : (sch.get_column_index c.name).isSome := by
  unfold Schema.get_column_index
  rw [List.findIdx?_eq_some_of_exists ⟨c, hmem, by simp⟩]
  rfl

theorem TWF_new (name : String) (schema : Schema) : TWF (Table.new name schema) := by
  cases hpk : schema.get_primary_key_index with
  | none =>
    have hred : Table.new name schema
        = ⟨name, schema, PageManager.new 100, [], 0⟩ := by
      unfold Table.new
      rw [hpk]
    rw [hred]
    refine ⟨rfl, CanonPages.nil 0, rfl, ?_, by simp [PageManager.new]⟩
    intro pk_index hpkidx
    have h2 : schema.get_primary_key_index = some pk_index := hpkidx
    rw [hpk] at h2
    exact Option.noConfusion h2
  | some pk =>
    have hlt : pk < schema.columns.length := pk_index_lt schema pk hpk
    have hmem : schema.columns.getD pk default ∈ schema.columns := by
      rw [getD_eq_getElem_of_lt _ _ hlt]
      exact List.getElem_mem hlt
    have hcol : (schema.get_column_index (schema.columns.getD pk default).name).isSome :=
      get_column_index_of_name_mem schema _ hmem
    obtain ⟨j, hci⟩ := Option.isSome_iff_exists.mp hcol
    have hred : Table.new name schema
        = ((⟨name, schema, PageManager.new 100, [], 0⟩ : Table).create_index
            (schema.columns.getD pk default).name).2 := by
      unfold Table.new
      rw [hpk]
    rw [hred]
    have hres : ((⟨name, schema, PageManager.new 100, [], 0⟩ : Table).create_index
        (schema.columns.getD pk default).name).2
        = ⟨name, schema, PageManager.new 100,
            [((schema.columns.getD pk default).name,
              BTreeIndex.new (schema.columns.getD pk default).name)], 0⟩ := by
      unfold Table.create_index
      rw [show (⟨name, schema, PageManager.new 100, [], 0⟩ : Table).schema.get_column_index
          (schema.columns.getD pk default).name = some j from hci]
      simp [idxGet, PageManager.scan, PageManager.new]
    rw [hres]
    refine ⟨rfl, CanonPages.nil 0, rfl, ?_, by simp [PageManager.new]⟩
    intro pk_index hpkidx
    have h2 : schema.get_primary_key_index = some pk_index := hpkidx
    rw [hpk] at h2
    rw [(Option.some.inj h2).symm]
    simp [idxGet]

theorem TWF_runOps (name : String) (schema : Schema) (ops : List Op) :
    TWF (runOps name schema ops) := by
  unfold runOps
  exact foldl_invariant TWF _ _ _ (TWF_new name schema) TWF_applyOp

theorem schema_applyOp (t : Table) (op : Op) : (t.applyOp op).schema = t.schema := by
  cases op with
  | ins vs =>
    show (t.insert vs).2.schema = t.schema
    rcases insert_snd_cases t vs with heq | ⟨_, heq⟩ <;> rw [heq]
  | upd wc wv uc uv =>
    show (t.update wc wv uc uv).2.schema = t.schema
    unfold Table.update
    cases t.schema.get_column_index wc with
    | none => rfl
    | some wci =>
      cases t.schema.get_column_index uc with
      | none => rfl
      | some uci =>
        simp only
        exact foldl_invariant (fun acc => acc.2.schema = t.schema)
          (updateOne uci uc uv) _ (0, t) rfl
          (fun b a hb => by
            show (updateOne uci uc uv b a).2.schema = t.schema
            rw [(updateOne_parts uci uc uv b a).1]
            exact hb)
  | del c v =>
    show (t.delete c v).2.schema = t.schema
    unfold Table.delete
    cases t.schema.get_column_index c with
    | none => rfl
    | some ci =>
      simp only
      exact foldl_invariant (fun acc => acc.schema = t.schema)
        (fun acc id => deleteOne t.schema acc id) _ t rfl
        (fun b a hb => by
          show (deleteOne t.schema b a).schema = t.schema
          rw [(deleteOne_parts t.schema b a).1]
          exact hb)
  | cidx c =>
    show (t.create_index c).2.schema = t.schema
    rcases create_index_snd_cases t c with heq | ⟨ix, heq⟩ <;> rw [heq]

theorem schema_create_index (t : Table) (c : String) :
    (t.create_index c).2.schema = t.schema := by
  rcases create_index_snd_cases t c with heq | ⟨ix, heq⟩ <;> rw [heq]

theorem schema_new (name : String) (schema : Schema) :
    (Table.new name schema).schema = schema := by
  unfold Table.new
  cases hpk : schema.get_primary_key_index with
  | none => rfl
  | some pk => rw [schema_create_index]

theorem schema_runOps (name : String) (schema : Schema) (ops : List Op) :
    (runOps name schema ops).schema = schema := by
  unfold runOps
  exact foldl_invariant (fun tt : Table => tt.schema = schema) Table.applyOp ops
    (Table.new name schema) (schema_new name schema)
    (fun b a hb => by
      show (b.applyOp a).schema = schema
      rw [schema_applyOp]
      exact hb)

theorem next_le_applyOp (t : Table) (op : Op) :
    t.next_row_id ≤ (t.applyOp op).next_row_id := by
  cases op with
  | ins vs =>
    show t.next_row_id ≤ (t.insert vs).2.next_row_id
    rcases insert_snd_cases t vs with heq | ⟨_, heq⟩ <;> rw [heq] <;> simp
  | upd wc wv uc uv =>
    show t.next_row_id ≤ (t.update wc wv uc uv).2.next_row_id
    unfold Table.update
    cases t.schema.get_column_index wc with
    | none => exact le_refl _
    | some wci =>
      cases t.schema.get_column_index uc with
      | none => exact le_refl _
      | some uci =>
        simp only
        exact foldl_invariant (fun acc => t.next_row_id ≤ acc.2.next_row_id)
          (updateOne uci uc uv) _ (0, t) (le_refl _)
          (fun b a hb => by
            show t.next_row_id ≤ (updateOne uci uc uv b a).2.next_row_id
            rw [(updateOne_parts uci uc uv b a).2.1]
            exact hb)
  | del c v =>
    show t.next_row_id ≤ (t.delete c v).2.next_row_id
    unfold Table.delete
    cases t.schema.get_column_index c with
    | none => exact le_refl _
    | some ci =>
      simp only
      exact foldl_invariant (fun acc => t.next_row_id ≤ acc.next_row_id)
        (fun acc id => deleteOne t.schema acc id) _ t (le_refl _)
        (fun b a hb => by
          show t.next_row_id ≤ (deleteOne t.schema b a).next_row_id
          rw [(deleteOne_parts t.schema b a).2.2.1]
          exact hb)
  | cidx c =>
    show t.next_row_id ≤ (t.create_index c).2.next_row_id
    rcases create_index_snd_cases t c with heq | ⟨ix, heq⟩ <;> rw [heq]

theorem next_le_foldOps (t : Table) (ops : List Op) :
    t.next_row_id ≤ (ops.foldl Table.applyOp t).next_row_id := by
  induction ops generalizing t with
  | nil => exact le_refl _
  | cons op ops ih => exact le_trans (next_le_applyOp t op) (ih (t.applyOp op))

/-! ### Characterizing the index maintenance of `Table::insert`

With duplicate-free column names (the data model of spec §3), the insert
fold touches the index of column `cIdx` exactly once, inserting that
column's value. -/

theorem idxGet_foldl_idxModify (L : List (Nat × Value)) (nm : Nat → String)
    (g : Nat × Value → BTreeIndex → BTreeIndex) (m : List (String × BTreeIndex))
    (c : String) :
    idxGet (L.foldl (fun m cv => idxModify m (nm cv.1) (g cv)) m) c
      = (idxGet m c).map
          (fun ix => L.foldl (fun ix cv => if nm cv.1 = c then g cv ix else ix) ix) := by
  induction L generalizing m with
  | nil =>
    rw [List.foldl_nil]
    cases idxGet m c <;> rfl
  | cons a L ih =>
    rw [List.foldl_cons, ih, idxGet_idxModify]
    cases hm : idxGet m c with
    | none => by_cases h : c = nm a.1 <;> simp [h]
    | some ix =>
      by_cases h : c = nm a.1
      · rw [if_pos h]
        simp only [Option.map_some', Option.some.injEq]
        rw [List.foldl_cons, if_pos h.symm]
      · rw [if_neg h]
        simp only [Option.map_some', Option.some.injEq]
        rw [List.foldl_cons, if_neg (fun hh => h hh.symm)]

theorem foldl_enumFrom_skip (vs : List Value) (o : Nat) (nm : Nat → String)
    (c : String) (rid : Nat)
    (h : ∀ j, o ≤ j → j < o + vs.length → ¬ (nm j = c)) (ix : BTreeIndex) :
    (List.enumFrom o vs).foldl
        (fun ix cv => if nm cv.1 = c then ix.insert cv.2 rid else ix) ix = ix := by
  induction vs generalizing o ix with
  | nil => rfl
  | cons v vs ih =>
    rw [List.enumFrom_cons, List.foldl_cons,
      if_neg (h o (le_refl o) (by simp only [List.length_cons]; omega))]
    exact ih (o + 1)
      (fun j h1 h2 => h j (by omega) (by simp only [List.length_cons]; omega)) ix

theorem foldl_enumFrom_if_single (vs : List Value) (o cIdx : Nat)
    (nm : Nat → String) (c : String) (rid : Nat)
    (hlo : o ≤ cIdx) (hhi : cIdx < o + vs.length)
    (hc : ∀ j, o ≤ j → j < o + vs.length → ((nm j = c) ↔ j = cIdx))
    (ix : BTreeIndex) :
    (List.enumFrom o vs).foldl
        (fun ix cv => if nm cv.1 = c then ix.insert cv.2 rid else ix) ix
      = ix.insert (vs.getD (cIdx - o) .null) rid := by
  induction vs generalizing o ix with
  | nil =>
    rw [List.length_nil] at hhi
    omega
  | cons v vs ih =>
    rw [List.enumFrom_cons, List.foldl_cons]
    by_cases ho : o = cIdx
    · have hcond : nm o = c :=
        (hc o (le_refl o) (by simp only [List.length_cons]; omega)).mpr ho
      rw [if_pos hcond]
      rw [foldl_enumFrom_skip vs (o + 1) nm c rid
        (fun j h1 h2 hh => by
          have := (hc j (by omega) (by simp only [List.length_cons]; omega)).mp hh
          omega)]
      rw [show cIdx - o = 0 from by omega]
      rfl
    · have hcond : ¬ (nm o = c) := fun hh =>
        ho ((hc o (le_refl o) (by simp only [List.length_cons]; omega)).mp hh)
      rw [if_neg hcond]
      rw [ih (o + 1) (by omega)
        (by simp only [List.length_cons] at hhi ⊢; omega)
        (fun j h1 h2 =>
          hc j (by omega) (by simp only [List.length_cons] at h2 ⊢; omega))]
      rw [show cIdx - o = (cIdx - (o + 1)) + 1 from by omega]
      rfl

theorem name_inj_of_nodup (sch : Schema)
    (hnod : (sch.columns.map (fun c => c.name)).Nodup)
    (j cIdx : Nat) (hj : j < sch.columns.length) (hci : cIdx < sch.columns.length) :
    ((sch.columns.getD j default).name = (sch.columns.getD cIdx default).name)
      ↔ j = cIdx := by
  rw [getD_eq_getElem_of_lt _ _ hj, getD_eq_getElem_of_lt _ _ hci]
  have hj2 : j < (sch.columns.map (fun c => c.name)).length := by
    rw [List.length_map]
    exact hj
  have hci2 : cIdx < (sch.columns.map (fun c => c.name)).length := by
    rw [List.length_map]
    exact hci
  constructor
  · intro heq
    have h1 : (sch.columns.map (fun c => c.name)).get ⟨j, hj2⟩
        = (sch.columns.map (fun c => c.name)).get ⟨cIdx, hci2⟩ := by
      simpa using heq
    exact (List.Nodup.getElem_inj_iff hnod).mp h1
  · intro heq
    subst heq
    rfl

theorem idxGet_updateIndexesOnInsert (sch : Schema)
    (m : List (String × BTreeIndex)) (vs : List Value) (rid : Nat)
    (hnod : (sch.columns.map (fun c => c.name)).Nodup)
    (cIdx : Nat) (hci : cIdx < sch.columns.length)
    (harity : vs.length = sch.columns.length) :
    idxGet (updateIndexesOnInsert sch m vs rid) (sch.columns.getD cIdx default).name
      = (idxGet m (sch.columns.getD cIdx default).name).map
          (fun ix => ix.insert (vs.getD cIdx .null) rid) := by
  unfold updateIndexesOnInsert
  rw [show vs.enum = List.enumFrom 0 vs from rfl]
  rw [idxGet_foldl_idxModify (List.enumFrom 0 vs)
    (fun j => (sch.columns.getD j default).name)
    (fun cv ix => ix.insert cv.2 rid) m (sch.columns.getD cIdx default).name]
  cases idxGet m (sch.columns.getD cIdx default).name with
  | none => rfl
  | some ix =>
    rw [Option.map_some', Option.map_some', Option.some.injEq]
    rw [foldl_enumFrom_if_single vs 0 cIdx
      (fun j => (sch.columns.getD j default).name)
      (sch.columns.getD cIdx default).name rid
      (Nat.zero_le cIdx) (by omega)
      (fun j h1 h2 => name_inj_of_nodup sch hnod j cIdx (by omega) hci) ix]
    rfl

theorem pkDup_eq_isSome (t : Table) (vs : List Value) (pkIdx : Nat)
    (hpk : t.schema.get_primary_key_index = some pkIdx)
    (ix : BTreeIndex)
    (hix : idxGet t.indexes (t.schema.columns.getD pkIdx default).name = some ix) :
    pkDup t vs = (ix.lookup (vs.getD pkIdx .null)).isSome := by
  unfold pkDup
  rw [hpk]
  show (match idxGet t.indexes (t.schema.columns.getD pkIdx default).name with
    | some index => (index.lookup (vs.getD pkIdx .null)).isSome
    | none => false) = (ix.lookup (vs.getD pkIdx .null)).isSome
  rw [hix]

/-- The index path of `Table::select`: with an index on the column and a
hit for the value, the result is the rows fetched for the stored ids. -/
theorem select_index_path (t : Table) (c : String) (v : Value) (ix : BTreeIndex)
    (hix : idxGet t.indexes c = some ix) (ids : List Nat)
    (hlook : ix.lookup v = some ids) :
    t.select (some c) (some v)
      = .ok (ids.filterMap (fun id => t.page_manager.get id)) := by
  simp [Table.select, hix, hlook]

/-! ### C7 -/

/-- C7: for every table reached from `Table::new` by any call sequence, a
successful insert returns exactly the identifier `page_index * 100 +
slot_index` of the slot the page manager places the row in (capacity is 100),
and every later successful insert — after arbitrary further updates, deletes
and index creations — returns a strictly larger identifier, so identifiers
are monotonically assigned, unique, and never reused after a delete.
Identifiers are positional, so updates (which replace a value in place)
leave them untouched. -/
theorem C7_row_id_positional_monotonic (nm : String) (sch : Schema)
    (ops : List Op) (vs : List Value) (id : Nat) (t' : Table)
    (h : (runOps nm sch ops).insert vs = (.ok id, t')) :
    (((runOps nm sch ops).page_manager.insert ⟨vs⟩).1.1 * 100
        + ((runOps nm sch ops).page_manager.insert ⟨vs⟩).1.2 = id) ∧
    (∀ (more : List Op) (vs2 : List Value) (id2 : Nat) (t2 : Table),
      (more.foldl Table.applyOp t').insert vs2 = (.ok id2, t2) → id < id2) := by
  have h1 : ((runOps nm sch ops).insert vs).1 = .ok id := by rw [h]
  have h2 : ((runOps nm sch ops).insert vs).2 = t' := by rw [h]
  have hok : ((runOps nm sch ops).insert vs).1.isOk := by
    rw [h1]
    rfl
  obtain ⟨harity, hpkd, hfst, hsnd⟩ := insert_ok_parts _ vs hok
  obtain ⟨hmax, hcanon, hnext, hpkwf, hconf⟩ := TWF_runOps nm sch ops
  have hid : id = (runOps nm sch ops).next_row_id := by
    rw [h1] at hfst
    exact Except.ok.inj hfst
  obtain ⟨f1, f2, _, _, _, _, _, _⟩ :=
    pm_insert_facts (runOps nm sch ops).page_manager ⟨vs⟩ hmax hcanon
  constructor
  · rw [f1, ← hnext, hid]
  · intro more vs2 id2 t2 hins2
    have hnext' : t'.next_row_id = id + 1 := by
      rw [← h2, hsnd, hid]
    have hmono : t'.next_row_id ≤ (more.foldl Table.applyOp t').next_row_id :=
      next_le_foldOps t' more
    have hok2 : ((more.foldl Table.applyOp t').insert vs2).1.isOk := by
      rw [hins2]
      rfl
    obtain ⟨_, _, hfst2, _⟩ := insert_ok_parts _ vs2 hok2
    have hid2 : id2 = (more.foldl Table.applyOp t').next_row_id := by
      rw [hins2] at hfst2
      exact Except.ok.inj hfst2
    omega

/-- Witness for C7 on the scenario table: the first insert gets identifier
0 = 0·100 + 0, and a later insert gets a strictly larger one. -/
theorem C7_witness :
    (((runOps "t" demoSchema []).page_manager.insert
        ⟨[.integer 1, .text "a"]⟩).1.1 * 100
      + ((runOps "t" demoSchema []).page_manager.insert
        ⟨[.integer 1, .text "a"]⟩).1.2 = 0) ∧ 0 < 1 := by
  have hmain := C7_row_id_positional_monotonic "t" demoSchema []
    [.integer 1, .text "a"] 0
    ((runOps "t" demoSchema []).insert [.integer 1, .text "a"]).2 rfl
  refine ⟨hmain.1, ?_⟩
  exact hmain.2 [] [.integer 2, .text "c"] 1
    ((([] : List Op).foldl Table.applyOp
      ((runOps "t" demoSchema []).insert [.integer 1, .text "a"]).2).insert
        [.integer 2, .text "c"]).2 rfl

/-! ### C3 -/

/-- C3: on every reachable table whose schema (with its unique column
names, spec §3) declares a primary key, once an insert with primary-key
value `p` succeeds, a further insert of a conforming row with the same
primary-key value fails with the constraint-violation error, leaves the page
store and all indexes exactly as they were, and the row count has grown by
exactly 1 across the two inserts. -/
theorem C3_pk_duplicate_rejected (nm : String) (sch : Schema) (ops : List Op)
    (hnod : (sch.columns.map (fun c => c.name)).Nodup)
    (pkIdx : Nat) (hpk : sch.get_primary_key_index = some pkIdx)
    (v1 v2 : List Value) (id1 : Nat) (t1 : Table)
    (h1 : (runOps nm sch ops).insert v1 = (.ok id1, t1))
    (harity2 : v2.length = sch.columns.length)
    (hpkeq : v2.getD pkIdx .null = v1.getD pkIdx .null) :
    (t1.insert v2).1 = .error "Primary key violation: duplicate value" ∧
    (t1.insert v2).2 = t1 ∧
    t1.row_count = (runOps nm sch ops).row_count + 1 := by
  have hsch : (runOps nm sch ops).schema = sch := schema_runOps nm sch ops
  have h1fst : ((runOps nm sch ops).insert v1).1 = .ok id1 := by rw [h1]
  have h1snd : ((runOps nm sch ops).insert v1).2 = t1 := by rw [h1]
  have hok : ((runOps nm sch ops).insert v1).1.isOk := by
    rw [h1fst]
    rfl
  obtain ⟨harity1, hpkd1, hfst, hsnd⟩ := insert_ok_parts _ v1 hok
  obtain ⟨hmax, hcanon, hnext, hpkwf, hconf⟩ := TWF_runOps nm sch ops
  have hpkt : (runOps nm sch ops).schema.get_primary_key_index = some pkIdx := by
    rw [hsch]
    exact hpk
  obtain ⟨ix, hix⟩ := Option.isSome_iff_exists.mp (hpkwf pkIdx hpkt)
  have hlt : pkIdx < sch.columns.length := pk_index_lt sch pkIdx hpk
  -- the first insert found no entry for the key, so its lookup was `none`
  have hlook1 : ix.lookup (v1.getD pkIdx .null) = none := by
    rw [pkDup_eq_isSome _ v1 pkIdx hpkt ix hix] at hpkd1
    exact Option.not_isSome_iff_eq_none.mp (by rw [hpkd1]; exact Bool.false_ne_true)
  -- the schema and the primary-key index of `t1`
  have ht1sch : t1.schema = sch := by
    rw [← h1snd, hsnd]
    exact hsch
  have ht1idx : t1.indexes = updateIndexesOnInsert (runOps nm sch ops).schema
      (runOps nm sch ops).indexes v1 (runOps nm sch ops).next_row_id := by
    rw [← h1snd, hsnd]
  have hchar : idxGet t1.indexes ((runOps nm sch ops).schema.columns.getD pkIdx default).name
      = some (ix.insert (v1.getD pkIdx .null) (runOps nm sch ops).next_row_id) := by
    rw [ht1idx, idxGet_updateIndexesOnInsert _ _ _ _ (by rw [hsch]; exact hnod)
      pkIdx (by rw [hsch]; exact hlt) harity1, hix]
    rfl
  have hpkt1 : t1.schema.get_primary_key_index = some pkIdx := by
    rw [ht1sch]
    exact hpk
  have hdup : pkDup t1 v2 = true := by
    rw [pkDup_eq_isSome t1 v2 pkIdx hpkt1
      (ix.insert (v1.getD pkIdx .null) (runOps nm sch ops).next_row_id)
      (by rw [show t1.schema.columns.getD pkIdx default
          = (runOps nm sch ops).schema.columns.getD pkIdx default from by
            rw [ht1sch, hsch]]
          exact hchar)]
    rw [hpkeq]
    show (btreeLookup (btreeInsert ix.tree (v1.getD pkIdx .null) _)
      (v1.getD pkIdx .null)).isSome = true
    rw [btreeLookup_insert_of_none ix.tree _ _ hlook1]
    rfl
  have harity2t : v2.length = t1.schema.columns.length := by
    rw [ht1sch]
    exact harity2
  refine ⟨?_, ?_, ?_⟩
  · simp [Table.insert, harity2t, hdup]
  · simp [Table.insert, harity2t, hdup]
  · show t1.page_manager.total_rows = (runOps nm sch ops).page_manager.total_rows + 1
    have ht1pm : t1.page_manager
        = ((runOps nm sch ops).page_manager.insert ⟨v1⟩).2 := by
      rw [← h1snd, hsnd]
    obtain ⟨_, _, _, _, f5, _, _, _⟩ :=
      pm_insert_facts (runOps nm sch ops).page_manager ⟨v1⟩ hmax hcanon
    rw [ht1pm, f5]

/-- Witness for C3 on the scenario table: re-inserting primary key 1 fails
with the constraint violation, changes nothing, and the count grew by 1. -/
theorem C3_witness :
    (demoTable1.insert [.integer 1, .text "b"]).1
      = .error "Primary key violation: duplicate value" ∧
    (demoTable1.insert [.integer 1, .text "b"]).2 = demoTable1 ∧
    demoTable1.row_count = (runOps "t" demoSchema []).row_count + 1 :=
  C3_pk_duplicate_rejected "t" demoSchema [] (by decide) 0 (by decide)
    [.integer 1, .text "a"] [.integer 1, .text "b"] 0 demoTable1 rfl rfl rfl

/-! ### C4 -/

/-- C4: on every reachable table whose schema declares a primary key, when
the incoming row's primary-key value is absent from the primary-key index,
inserting the row and then selecting with an equality filter on the
primary-key column for that value returns exactly the inserted row and
nothing else. -/
theorem C4_insert_select_roundtrip (nm : String) (sch : Schema) (ops : List Op)
    (hnod : (sch.columns.map (fun c => c.name)).Nodup)
    (pkIdx : Nat) (hpk : sch.get_primary_key_index = some pkIdx)
    (vs : List Value) (harity : vs.length = sch.columns.length)
    (habsent : ∀ ix, idxGet (runOps nm sch ops).indexes
        (sch.columns.getD pkIdx default).name = some ix →
      ix.lookup (vs.getD pkIdx .null) = none) :
    ((runOps nm sch ops).insert vs).1 = .ok (runOps nm sch ops).next_row_id ∧
    ((runOps nm sch ops).insert vs).2.select
        (some (sch.columns.getD pkIdx default).name) (some (vs.getD pkIdx .null))
      = .ok [⟨vs⟩] := by
  have hsch : (runOps nm sch ops).schema = sch := schema_runOps nm sch ops
  obtain ⟨hmax, hcanon, hnext, hpkwf, hconf⟩ := TWF_runOps nm sch ops
  have hpkt : (runOps nm sch ops).schema.get_primary_key_index = some pkIdx := by
    rw [hsch]
    exact hpk
  obtain ⟨ix, hix⟩ := Option.isSome_iff_exists.mp (hpkwf pkIdx hpkt)
  have hnamet : (runOps nm sch ops).schema.columns.getD pkIdx default
      = sch.columns.getD pkIdx default := by rw [hsch]
  have hlook : ix.lookup (vs.getD pkIdx .null) = none :=
    habsent ix (by rw [← hnamet]; exact hix)
  have hlt : pkIdx < sch.columns.length := pk_index_lt sch pkIdx hpk
  have hpkd : pkDup (runOps nm sch ops) vs = false := by
    rw [pkDup_eq_isSome _ vs pkIdx hpkt ix hix, hlook]
    rfl
  have harityt : vs.length = (runOps nm sch ops).schema.columns.length := by
    rw [hsch]
    exact harity
  have hins1 : ((runOps nm sch ops).insert vs).1
      = .ok (runOps nm sch ops).next_row_id := by
    simp [Table.insert, harityt, hpkd]
  have hins2 : ((runOps nm sch ops).insert vs).2 = { runOps nm sch ops with
      page_manager := ((runOps nm sch ops).page_manager.insert ⟨vs⟩).2,
      next_row_id := (runOps nm sch ops).next_row_id + 1,
      indexes := updateIndexesOnInsert (runOps nm sch ops).schema
        (runOps nm sch ops).indexes vs (runOps nm sch ops).next_row_id } := by
    simp [Table.insert, harityt, hpkd]
  refine ⟨hins1, ?_⟩
  rw [hins2]
  have hchar : idxGet (updateIndexesOnInsert (runOps nm sch ops).schema
        (runOps nm sch ops).indexes vs (runOps nm sch ops).next_row_id)
      (sch.columns.getD pkIdx default).name
      = some (ix.insert (vs.getD pkIdx .null) (runOps nm sch ops).next_row_id) := by
    rw [← hnamet, idxGet_updateIndexesOnInsert _ _ _ _
      (by rw [hsch]; exact hnod) pkIdx (by rw [hsch]; exact hlt)
      (by rw [hsch]; exact harity), hix]
    rfl
  obtain ⟨_, _, _, _, _, _, f7, _⟩ :=
    pm_insert_facts (runOps nm sch ops).page_manager ⟨vs⟩ hmax hcanon
  rw [select_index_path _ _ _
    (ix.insert (vs.getD pkIdx .null) (runOps nm sch ops).next_row_id) hchar
    [(runOps nm sch ops).next_row_id]
    (btreeLookup_insert_of_none ix.tree _ _ hlook)]
  rw [List.filterMap_cons]
  rw [show (({ runOps nm sch ops with
      page_manager := ((runOps nm sch ops).page_manager.insert ⟨vs⟩).2,
      next_row_id := (runOps nm sch ops).next_row_id + 1,
      indexes := updateIndexesOnInsert (runOps nm sch ops).schema
        (runOps nm sch ops).indexes vs
        (runOps nm sch ops).next_row_id } : Table).page_manager).get
      (runOps nm sch ops).next_row_id = some ⟨vs⟩ from by
    show (((runOps nm sch ops).page_manager.insert ⟨vs⟩).2).get
      (runOps nm sch ops).next_row_id = some ⟨vs⟩
    rw [hnext]
    exact f7]
  rfl

/-- Witness for C4 on the scenario table: insert `(1,"a")` into the fresh
table, then select `id = 1`, getting exactly that row back. -/
theorem C4_witness :
    ((runOps "t" demoSchema []).insert [.integer 1, .text "a"]).1 = .ok 0 ∧
    ((runOps "t" demoSchema []).insert [.integer 1, .text "a"]).2.select
      (some "id") (some (.integer 1)) = .ok [⟨[.integer 1, .text "a"]⟩] :=
  C4_insert_select_roundtrip "t" demoSchema [] (by decide) 0 (by decide)
    [.integer 1, .text "a"] rfl
    (fun ix hix => by
      have h2 : (some (BTreeIndex.new "id") : Option BTreeIndex) = some ix := hix
      rw [← Option.some.inj h2]
      rfl)

/-! ### C8 -/

theorem updateLoop_facts (uci : Nat) (uc : String) (uv : Value) (L : List Nat) :
    ∀ (c0 : Nat) (t : Table),
      ((L.foldl (updateOne uci uc uv) (c0, t)).1
        = c0 + L.countP (fun id => (t.page_manager.get id).isSome)) ∧
      (∀ id', ((L.foldl (updateOne uci uc uv) (c0, t)).2.page_manager.get id').isSome
        = (t.page_manager.get id').isSome) ∧
      (∀ id, id ∉ L →
        (L.foldl (updateOne uci uc uv) (c0, t)).2.page_manager.get id
          = t.page_manager.get id) ∧
      (∀ id, id ∈ L → ∀ row, t.page_manager.get id = some row →
        (L.foldl (updateOne uci uc uv) (c0, t)).2.page_manager.get id
          = some ⟨row.values.set uci uv⟩) ∧
      (∀ id, id ∉ L → ∀ c v,
        hasEntry (L.foldl (updateOne uci uc uv) (c0, t)).2.indexes c v id
          = hasEntry t.indexes c v id) := by
  induction L with
  | nil =>
    intro c0 t
    refine ⟨by simp, fun id' => rfl, fun id _ => rfl, ?_, fun id _ c v => rfl⟩
    intro id hmem
    simp at hmem
  | cons id0 L ih =>
    intro c0 t
    rw [List.foldl_cons]
    cases hget : t.page_manager.get id0 with
    | none =>
      rw [updateOne_red_none uci uc uv (c0, t) id0 hget]
      obtain ⟨i1, i2, i3, i4, i5⟩ := ih c0 t
      refine ⟨?_, i2, ?_, ?_, ?_⟩
      · rw [i1, List.countP_cons]
        simp [hget]
      · intro id hmem
        exact i3 id (fun hm => hmem (List.mem_cons_of_mem id0 hm))
      · intro id hmem row hrow
        rcases List.mem_cons.mp hmem with heq | hm
        · rw [heq, hget] at hrow
          exact Option.noConfusion hrow
        · exact i4 id hm row hrow
      · intro id hmem c v
        exact i5 id (fun hm => hmem (List.mem_cons_of_mem id0 hm)) c v
    | some row =>
      rw [updateOne_red_some uci uc uv (c0, t) id0 row hget]
      set t1 : Table := { (c0, t).2 with
        page_manager := (c0, t).2.page_manager.setRow id0 ⟨row.values.set uci uv⟩,
        indexes := idxModify (idxModify (c0, t).2.indexes uc
          (fun ix => ix.remove (row.values.getD uci .null) id0)) uc
          (fun ix => ix.insert uv id0) } with ht1
      obtain ⟨i1, i2, i3, i4, i5⟩ := ih (c0 + 1) t1
      have g1 : ∀ id', (t1.page_manager.get id').isSome
          = (t.page_manager.get id').isSome := fun id' =>
        get_setRow_isSome t.page_manager id0 ⟨row.values.set uci uv⟩ id'
      have g2 : ∀ id, id ≠ id0 → t1.page_manager.get id = t.page_manager.get id :=
        fun id hne => get_setRow_ne t.page_manager id0 ⟨row.values.set uci uv⟩ id hne
      have g3 : t1.page_manager.get id0 = some ⟨row.values.set uci uv⟩ := by
        show (t.page_manager.setRow id0 ⟨row.values.set uci uv⟩).get id0 = _
        rw [get_setRow_self, hget]
        rfl
      have g4 : ∀ id, id ≠ id0 → ∀ c v,
          hasEntry t1.indexes c v id = hasEntry t.indexes c v id := by
        intro id hne c v
        show hasEntry (idxModify (idxModify t.indexes uc
          (fun ix => ix.remove (row.values.getD uci .null) id0)) uc
          (fun ix => ix.insert uv id0)) c v id = hasEntry t.indexes c v id
        rw [hasEntry_idxModify_ne _ uc _ v id
          (fun ix => entryMem_btreeInsert_ne ix.tree uv id0 id hne v) c]
        rw [hasEntry_idxModify_ne _ uc _ v id
          (fun ix => entryMem_btreeRemove_ne ix.tree
            (row.values.getD uci .null) id0 id hne v) c]
      refine ⟨?_, ?_, ?_, ?_, ?_⟩
      · rw [i1, List.countP_cons]
        have hcong : L.countP (fun id => (t1.page_manager.get id).isSome)
            = L.countP (fun id => (t.page_manager.get id).isSome) :=
          List.countP_congr (fun id _ => by rw [g1 id])
        rw [hcong]
        simp [hget]
        omega
      · intro id'
        rw [i2 id', g1 id']
      · intro id hmem
        have hne : id ≠ id0 := fun heq => hmem (heq ▸ List.mem_cons_self id0 L)
        rw [i3 id (fun hm => hmem (List.mem_cons_of_mem id0 hm)), g2 id hne]
      · intro id hmem row' hrow
        rcases List.mem_cons.mp hmem with heq | hm
        · subst heq
          have hrow0 : row' = row := by
            rw [hget] at hrow
            exact (Option.some.inj hrow).symm
          subst hrow0
          by_cases hmL : id ∈ L
          · have := i4 id hmL ⟨row'.values.set uci uv⟩ g3
            rw [this]
            rw [List.set_set]
          · rw [i3 id hmL, g3]
        · by_cases hne : id = id0
          · subst hne
            have hrow0 : row' = row := by
              rw [hget] at hrow
              exact (Option.some.inj hrow).symm
            subst hrow0
            have := i4 id hm ⟨row'.values.set uci uv⟩ g3
            rw [this, List.set_set]
          · have := i4 id hm row' (by rw [g2 id hne]; exact hrow)
            rw [this]
      · intro id hmem c v
        have hne : id ≠ id0 := fun heq => hmem (heq ▸ List.mem_cons_self id0 L)
        rw [i5 id (fun hm => hmem (List.mem_cons_of_mem id0 hm)) c v, g4 id hne c v]

theorem update_red (t : Table) (wcol : String) (wval : Value) (ucol : String)
    (uval : Value) (wci uci : Nat)
    (hw : t.schema.get_column_index wcol = some wci)
    (hu : t.schema.get_column_index ucol = some uci) :
    t.update wcol wval ucol uval
      = (.ok ((t.findRowIds wcol wci wval).foldl (updateOne uci ucol uval) (0, t)).1,
         ((t.findRowIds wcol wci wval).foldl (updateOne uci ucol uval) (0, t)).2) := by
  simp [Table.update, hw, hu]

/-- C8: whenever `update(where_column, where_value, set_column, set_value)`
succeeds on a table, the count is the number of snapshot-matched ids whose
row exists; every row id outside the snapshot keeps exactly its stored row
(same identifier, same values) and its index entries in every column; and
every snapshot-matched stored row is rewritten in place at its unchanged
identifier.  The snapshot `findRowIds` is computed on the pre-state, so when
`set_column = where_column` the updated set is the original match set, not a
recomputed one. -/
theorem C8_update_frame (t : Table) (wcol : String) (wval : Value)
    (ucol : String) (uval : Value) (cnt : Nat) (t' : Table)
    (h : t.update wcol wval ucol uval = (.ok cnt, t')) :
    cnt = (t.findRowIds wcol ((t.schema.get_column_index wcol).getD 0) wval).countP
        (fun id => (t.page_manager.get id).isSome) ∧
    (∀ id, id ∉ t.findRowIds wcol ((t.schema.get_column_index wcol).getD 0) wval →
      t'.page_manager.get id = t.page_manager.get id) ∧
    (∀ id, id ∈ t.findRowIds wcol ((t.schema.get_column_index wcol).getD 0) wval →
      ∀ row, t.page_manager.get id = some row →
        t'.page_manager.get id
          = some ⟨row.values.set ((t.schema.get_column_index ucol).getD 0) uval⟩) ∧
    (∀ id, id ∉ t.findRowIds wcol ((t.schema.get_column_index wcol).getD 0) wval →
      ∀ c v, hasEntry t'.indexes c v id = hasEntry t.indexes c v id) := by
  cases hw : t.schema.get_column_index wcol with
  | none =>
    exfalso
    have h1 := congrArg Prod.fst h
    simp [Table.update, hw] at h1
  | some wci =>
    cases hu : t.schema.get_column_index ucol with
    | none =>
      exfalso
      have h1 := congrArg Prod.fst h
      simp [Table.update, hw, hu] at h1
    | some uci =>
      have hred := (update_red t wcol wval ucol uval wci uci hw hu).symm.trans h
      have hcnt : ((t.findRowIds wcol wci wval).foldl
          (updateOne uci ucol uval) (0, t)).1 = cnt :=
        Except.ok.inj (congrArg Prod.fst hred)
      have ht' : ((t.findRowIds wcol wci wval).foldl
          (updateOne uci ucol uval) (0, t)).2 = t' :=
        congrArg Prod.snd hred
      obtain ⟨i1, _, i3, i4, i5⟩ :=
        updateLoop_facts uci ucol uval (t.findRowIds wcol wci wval) 0 t
      simp only [Option.getD_some]
      refine ⟨?_, ?_, ?_, ?_⟩
      · rw [← hcnt, i1]
        simp
      · intro id hmem
        rw [← ht']
        exact i3 id hmem
      · intro id hmem row hrow
        rw [← ht']
        exact i4 id hmem row hrow
      · intro id hmem c v
        rw [← ht']
        exact i5 id hmem c v

/-- Witness for C8: updating `name` to `"c"` where `id = 2` on the scenario
table leaves row 0 (which does not match) untouched in the page store. -/
theorem C8_witness :
    demoTable2.page_manager.get 0
      = (demoTable2.update "id" (.integer 2) "name" (.text "c")).2.page_manager.get 0 :=
  ((C8_update_frame demoTable2 "id" (.integer 2) "name" (.text "c") 1
    (demoTable2.update "id" (.integer 2) "name" (.text "c")).2 rfl).2.1 0
    (by decide)).symm

/-! ### C9: per-table lemmas -/

theorem pm_create_index (t : Table) (c : String) :
    (t.create_index c).2.page_manager = t.page_manager := by
  rcases create_index_snd_cases t c with heq | ⟨ix, heq⟩ <;> rw [heq]

theorem scan_length (pm : PageManager) : pm.scan.length = pm.total_rows := by
  unfold PageManager.scan PageManager.total_rows
  rw [List.length_flatten, List.map_map]
  apply congrArg List.sum
  apply List.map_congr_left
  intro p _
  simp

theorem table_new_red (nm : String) (sch : Schema) (pk : Nat)
    (hpk : sch.get_primary_key_index = some pk) :
    Table.new nm sch
      = ⟨nm, sch, PageManager.new 100,
          [((sch.columns.getD pk default).name,
            BTreeIndex.new (sch.columns.getD pk default).name)], 0⟩ := by
  have hlt := pk_index_lt sch pk hpk
  have hmem : sch.columns.getD pk default ∈ sch.columns := by
    rw [getD_eq_getElem_of_lt _ _ hlt]
    exact List.getElem_mem hlt
  obtain ⟨j, hci⟩ := Option.isSome_iff_exists.mp
    (get_column_index_of_name_mem sch _ hmem)
  have hred : Table.new nm sch
      = ((⟨nm, sch, PageManager.new 100, [], 0⟩ : Table).create_index
          (sch.columns.getD pk default).name).2 := by
    unfold Table.new
    rw [hpk]
  rw [hred]
  unfold Table.create_index
  rw [show (⟨nm, sch, PageManager.new 100, [], 0⟩ : Table).schema.get_column_index
      (sch.columns.getD pk default).name = some j from hci]
  have hnone : (idxGet (⟨nm, sch, PageManager.new 100, [], 0⟩ : Table).indexes
      (sch.columns.getD pk default).name).isSome = false := rfl
  simp [hnone]
  rfl

theorem new_tableInv (nm : String) (sch : Schema)
    (hpk0 : sch.get_primary_key_index = some 0) :
    tableInv sch [] (Table.new nm sch) := by
  refine ⟨TWF_new nm sch, schema_new nm sch, ?_, ?_⟩
  · rw [table_new_red nm sch 0 hpk0]
    rfl
  · refine ⟨BTreeIndex.new (sch.columns.getD 0 default).name, ?_, ?_⟩
    · rw [table_new_red nm sch 0 hpk0]
      simp [idxGet]
    · intro v
      simp [BTreeIndex.new, BTreeIndex.lookup, btreeLookup]

theorem table_insert_step (sch : Schema)
    (hpk0 : sch.get_primary_key_index = some 0)
    (hnod : (sch.columns.map (fun c => c.name)).Nodup)
    (t : Table) (done : List (List Value)) (hinv : tableInv sch done t)
    (vs : List Value) (harity : vs.length = sch.columns.length)
    (hsep : ∀ u ∈ done, ¬ (idxCmp (vs.getD 0 .null) (u.getD 0 .null) = .eq
      ∨ idxCmp (u.getD 0 .null) (vs.getD 0 .null) = .eq)) :
    (t.insert vs).1 = .ok t.next_row_id ∧
    tableInv sch (done ++ [vs]) (t.insert vs).2 := by
  obtain ⟨htwf, hsch, hscan, ix, hix, hchar⟩ := hinv
  have hpkt : t.schema.get_primary_key_index = some 0 := by
    rw [hsch]
    exact hpk0
  have hname : t.schema.columns.getD 0 default = sch.columns.getD 0 default := by
    rw [hsch]
  have hlt : 0 < sch.columns.length := pk_index_lt sch 0 hpk0
  have hlook : ix.lookup (vs.getD 0 .null) = none := by
    rw [← Option.not_isSome_iff_eq_none]
    intro hsome
    obtain ⟨u, hu, hcmp⟩ := (hchar _).mp hsome
    exact hsep u hu (Or.inl hcmp)
  have hpkd : pkDup t vs = false := by
    rw [pkDup_eq_isSome t vs 0 hpkt ix (by rw [hname]; exact hix), hlook]
    rfl
  have harityt : vs.length = t.schema.columns.length := by
    rw [hsch]
    exact harity
  have hfst : (t.insert vs).1 = .ok t.next_row_id := by
    simp [Table.insert, harityt, hpkd]
  have hok : (t.insert vs).1.isOk := by
    rw [hfst]
    rfl
  obtain ⟨_, _, _, hsnd⟩ := insert_ok_parts t vs hok
  obtain ⟨hmax, hcanon, hnext, hpkwf, hconf⟩ := htwf
  obtain ⟨f1, f2, f3, f4, f5, f6, f7, f8⟩ :=
    pm_insert_facts t.page_manager ⟨vs⟩ hmax hcanon
  refine ⟨hfst, TWF_insert t vs ⟨hmax, hcanon, hnext, hpkwf, hconf⟩, ?_, ?_⟩
  · rw [hsnd]
    exact hsch
  · rw [hsnd]
    constructor
    · show ((t.page_manager.insert ⟨vs⟩).2).scan.map (fun pr => pr.2.values)
        = done ++ [vs]
      rw [f6, List.map_append, hscan]
      rfl
    · refine ⟨ix.insert (vs.getD 0 .null) t.next_row_id, ?_, ?_⟩
      · show idxGet (updateIndexesOnInsert t.schema t.indexes vs t.next_row_id)
          (sch.columns.getD 0 default).name = _
        rw [← hname, idxGet_updateIndexesOnInsert t.schema t.indexes vs
          t.next_row_id (by rw [hsch]; exact hnod) 0 (by rw [hsch]; exact hlt)
          harityt]
        rw [show idxGet t.indexes (t.schema.columns.getD 0 default).name = some ix
          from by rw [hname]; exact hix]
        rfl
      · intro v
        rw [show (ix.insert (vs.getD 0 .null) t.next_row_id).lookup v
          = btreeLookup (btreeInsert ix.tree (vs.getD 0 .null) t.next_row_id) v
          from rfl]
        rw [btreeLookup_insert_isSome_iff ix.tree (vs.getD 0 .null)
          t.next_row_id v hlook]
        constructor
        · rintro (hold | hcmp)
          · obtain ⟨u, hu, hc⟩ := (hchar v).mp hold
            exact ⟨u, List.mem_append_left _ hu, hc⟩
          · exact ⟨vs, List.mem_append_right _ (List.mem_singleton.mpr rfl), hcmp⟩
        · rintro ⟨u, hu, hc⟩
          rcases List.mem_append.mp hu with hu1 | hu2
          · exact Or.inl ((hchar v).mpr ⟨u, hu1, hc⟩)
          · rw [List.mem_singleton.mp hu2] at hc
            exact Or.inr hc

theorem tablesGet_single (nm : String) (t : Table) :
    tablesGet [(nm, t)] nm = some t := by
  simp [tablesGet]

theorem tablesSet_single (nm : String) (t t2 : Table) :
    tablesSet [(nm, t)] nm t2 = [(nm, t2)] := by
  simp [tablesSet]

theorem exec_insert_red (ex : QueryExecutor) (nm : String) (vs : List Value)
    (t : Table) (ht : tablesGet ex.tables nm = some t) (rid : Nat)
    (hok : (t.insert vs).1 = .ok rid) :
    ex.execute (.insert nm vs)
      = (.ok (.message ("1 row inserted into " ++ nm)),
         ⟨tablesSet ex.tables nm (t.insert vs).2⟩) := by
  simp [QueryExecutor.execute, ht, hok]

theorem exec_select_none_red (ex : QueryExecutor) (nm : String) (t : Table)
    (ht : tablesGet ex.tables nm = some t) :
    ex.execute (.select nm none)
      = (.ok (.rows (t.page_manager.scan.map (·.2))
          (t.schema.columns.map (·.name))), ex) := by
  simp [QueryExecutor.execute, ht, Table.select]

theorem execOn_red (db : ShardedDatabase) (sid : Nat) (q : Query)
    (ex : QueryExecutor) (hsid : db.shards[sid]? = some ex) :
    db.execOn sid q
      = ((ex.execute q).1,
         { db with shards := db.shards.set sid (ex.execute q).2 }) := by
  simp [ShardedDatabase.execOn, hsid]

theorem sharded_insert_red (h : String → Nat) (db : ShardedDatabase)
    (nm : String) (vs : List Value) :
    db.execute h (.insert nm vs)
      = db.execOn (db.get_shard_id h (vs.getD 0 .null)) (.insert nm vs) := rfl

theorem broadcast_createTable (nm : String) (sch : Schema) (k : Nat) :
    broadcast (.createTable nm sch) (List.replicate k QueryExecutor.new)
      = (.ok (), List.replicate k ⟨[(nm, Table.new nm sch)]⟩) := by
  induction k with
  | zero => rfl
  | succ k ih =>
    rw [List.replicate_succ, List.replicate_succ]
    have hexec : QueryExecutor.new.execute (.createTable nm sch)
        = (.ok (.message ("Table created: " ++ nm)),
           ⟨[(nm, Table.new nm sch)]⟩) := by
      simp [QueryExecutor.execute, QueryExecutor.new, tablesGet]
    simp [broadcast, hexec, ih]

theorem sharded_createTable_red (h : String → Nat) (n : Nat) (nm : String)
    (sch : Schema) :
    (ShardedDatabase.new n).execute h (.createTable nm sch)
      = (.ok (.message "Table created on all shards"),
         ⟨List.replicate n ⟨[(nm, Table.new nm sch)]⟩, n⟩) := by
  unfold ShardedDatabase.execute
  rw [show (ShardedDatabase.new n).shards = List.replicate n QueryExecutor.new from rfl,
    broadcast_createTable nm sch n]
  rfl

theorem GlobalInv_init (h : String → Nat) (n : Nat) (nm : String) (sch : Schema)
    (hpk0 : sch.get_primary_key_index = some 0) :
    GlobalInv h n nm sch ⟨List.replicate n ⟨[(nm, Table.new nm sch)]⟩, n⟩ [] := by
  refine ⟨rfl, by simp, ?_⟩
  intro j hj
  refine ⟨Table.new nm sch, ?_, ?_⟩
  · simp [List.getElem?_replicate, hj]
  · simpa using new_tableInv nm sch hpk0

theorem GlobalInv_step (h : String → Nat) (n : Nat) (nm : String) (sch : Schema)
    (hn : 0 < n) (hpk0 : sch.get_primary_key_index = some 0)
    (hnod : (sch.columns.map (fun c => c.name)).Nodup)
    (db : ShardedDatabase) (done : List (List Value)) (vs : List Value)
    (hinv : GlobalInv h n nm sch db done)
    (harity : vs.length = sch.columns.length)
    (hsep : ∀ u ∈ done, ¬ (idxCmp (vs.getD 0 .null) (u.getD 0 .null) = .eq
      ∨ idxCmp (u.getD 0 .null) (vs.getD 0 .null) = .eq)) :
    ∃ db2, db.execute h (.insert nm vs)
        = (.ok (.message ("1 row inserted into " ++ nm)), db2) ∧
      GlobalInv h n nm sch db2 (done ++ [vs]) := by
  obtain ⟨hnum, hlen, hsh⟩ := hinv
  have hsidlt : shardOf h n vs < n := Nat.mod_lt _ hn
  obtain ⟨tj, hj, htinv⟩ := hsh (shardOf h n vs) hsidlt
  have hroute : db.get_shard_id h (vs.getD 0 .null) = shardOf h n vs := by
    simp [ShardedDatabase.get_shard_id, hnum, shardOf]
  have hstep := table_insert_step sch hpk0 hnod tj
    (done.filter (fun u => shardOf h n u = shardOf h n vs)) htinv vs harity
    (fun u hu => hsep u (List.mem_of_mem_filter hu))
  obtain ⟨hfst, hinv2⟩ := hstep
  have hexec : db.execute h (.insert nm vs)
      = (.ok (.message ("1 row inserted into " ++ nm)),
         ShardedDatabase.mk
           (db.shards.set (shardOf h n vs)
             (QueryExecutor.mk [(nm, (tj.insert vs).2)]))
           db.num_shards) := by
    rw [sharded_insert_red, hroute,
      execOn_red db (shardOf h n vs) _ ⟨[(nm, tj)]⟩ hj,
      exec_insert_red ⟨[(nm, tj)]⟩ nm vs tj (tablesGet_single nm tj)
        tj.next_row_id hfst, tablesSet_single]
  refine ⟨_, hexec, hnum, by rw [List.length_set]; exact hlen, ?_⟩
  intro j hj2
  by_cases hjs : j = shardOf h n vs
  · subst hjs
    refine ⟨(tj.insert vs).2, ?_, ?_⟩
    · show (db.shards.set (shardOf h n vs)
          (QueryExecutor.mk [(nm, (tj.insert vs).2)]))[shardOf h n vs]? = _
      rw [List.getElem?_set_self (by rw [hlen]; exact hj2)]
    · have hfil : (done ++ [vs]).filter (fun u => shardOf h n u = shardOf h n vs)
          = done.filter (fun u => shardOf h n u = shardOf h n vs) ++ [vs] := by
        rw [List.filter_append]
        simp
      rw [hfil]
      exact hinv2
  · obtain ⟨tj2, hj2g, htinv2⟩ := hsh j hj2
    refine ⟨tj2, ?_, ?_⟩
    · show (db.shards.set (shardOf h n vs)
          (QueryExecutor.mk [(nm, (tj.insert vs).2)]))[j]? = _
      rw [List.getElem?_set_ne (fun hh => hjs hh.symm)]
      exact hj2g
    · have hfil : (done ++ [vs]).filter (fun u => shardOf h n u = j)
          = done.filter (fun u => shardOf h n u = j) := by
        have hne : ¬ shardOf h n vs = j := fun hh => hjs hh.symm
        rw [List.filter_append]
        simp [hne]
      rw [hfil]
      exact htinv2

theorem insertAll_inv (h : String → Nat) (n : Nat) (nm : String) (sch : Schema)
    (hn : 0 < n) (hpk0 : sch.get_primary_key_index = some 0)
    (hnod : (sch.columns.map (fun c => c.name)).Nodup) :
    ∀ (remaining done : List (List Value)) (db : ShardedDatabase),
      GlobalInv h n nm sch db done →
      (∀ vs ∈ remaining, vs.length = sch.columns.length) →
      (∀ u ∈ done, ∀ v ∈ remaining,
        ¬ (idxCmp (v.getD 0 .null) (u.getD 0 .null) = .eq
          ∨ idxCmp (u.getD 0 .null) (v.getD 0 .null) = .eq)) →
      List.Pairwise (fun a b =>
        ¬ (idxCmp (b.getD 0 .null) (a.getD 0 .null) = .eq
          ∨ idxCmp (a.getD 0 .null) (b.getD 0 .null) = .eq)) remaining →
      ∃ db2, insertAll h nm db remaining = .ok db2 ∧
        GlobalInv h n nm sch db2 (done ++ remaining) := by
  intro remaining
  induction remaining with
  | nil =>
    intro done db hinv _ _ _
    exact ⟨db, rfl, by simpa using hinv⟩
  | cons vs rest ih =>
    intro done db hinv harity hsep hpw
    obtain ⟨db2, hexec, hinv2⟩ := GlobalInv_step h n nm sch hn hpk0 hnod db done vs
      hinv (harity vs (List.mem_cons_self vs rest))
      (fun u hu => hsep u hu vs (List.mem_cons_self vs rest))
    have hred : insertAll h nm db (vs :: rest) = insertAll h nm db2 rest := by
      show (match (db.execute h (.insert nm vs)).1 with
        | .error e => Except.error e
        | .ok _ => insertAll h nm (db.execute h (.insert nm vs)).2 rest) = _
      rw [hexec]
    rw [hred]
    obtain ⟨hpwhd, hpwtl⟩ := List.pairwise_cons.mp hpw
    have hsep2 : ∀ u ∈ done ++ [vs], ∀ v ∈ rest,
        ¬ (idxCmp (v.getD 0 .null) (u.getD 0 .null) = .eq
          ∨ idxCmp (u.getD 0 .null) (v.getD 0 .null) = .eq) := by
      intro u hu v hv
      rcases List.mem_append.mp hu with hu1 | hu2
      · exact hsep u hu1 v (List.mem_cons_of_mem vs hv)
      · rw [List.mem_singleton.mp hu2]
        exact hpwhd v hv
    obtain ⟨db3, hall, hinv3⟩ := ih (done ++ [vs]) db2 hinv2
      (fun v hv => harity v (List.mem_cons_of_mem vs hv)) hsep2 hpwtl
    refine ⟨db3, hall, ?_⟩
    rw [List.append_cons]
    exact hinv3

theorem listCharRange {α : Type} (l : List α) (n : Nat) (G : Nat → α)
    (hl : l.length = n) (hpt : ∀ j, j < n → l[j]? = some (G j)) :
    l = (List.range n).map G := by
  apply List.ext_getElem?
  intro i
  by_cases hi : i < n
  · rw [hpt i hi, List.getElem?_map, List.getElem?_range hi]
    rfl
  · rw [List.getElem?_eq_none (by omega), List.getElem?_eq_none]
    rw [List.length_map, List.length_range]
    omega

theorem flatten_filter_range_perm {α : Type} (l : List α) (g : α → Nat) (n : Nat)
    (hg : ∀ x ∈ l, g x < n) :
    ((List.range n).map (fun j => l.filter (fun x => g x = j))).flatten.Perm l := by
  induction l with
  | nil => simp
  | cons x xs ih =>
    have hgx : g x ∈ List.range n :=
      List.mem_range.mpr (hg x (List.mem_cons_self x xs))
    obtain ⟨s, t, hst⟩ := List.append_of_mem hgx
    have hnd : (s ++ g x :: t).Nodup := hst ▸ List.nodup_range n
    obtain ⟨hnds, hndt2, hdisj⟩ := List.nodup_append.mp hnd
    have hxs : ∀ j ∈ s, ¬ (g x = j) := fun j hjs heq =>
      hdisj hjs (heq ▸ List.mem_cons_self (g x) t)
    have hxt : ∀ j ∈ t, ¬ (g x = j) := fun j hjt heq =>
      (List.nodup_cons.mp hndt2).1 (heq ▸ hjt)
    have hmapS : s.map (fun j => (x :: xs).filter (fun y => g y = j))
        = s.map (fun j => xs.filter (fun y => g y = j)) := by
      apply List.map_congr_left
      intro j hj
      rw [List.filter_cons]
      simp [hxs j hj]
    have hmapT : t.map (fun j => (x :: xs).filter (fun y => g y = j))
        = t.map (fun j => xs.filter (fun y => g y = j)) := by
      apply List.map_congr_left
      intro j hj
      rw [List.filter_cons]
      simp [hxt j hj]
    have hhd : (x :: xs).filter (fun y => g y = (g x))
        = x :: xs.filter (fun y => g y = (g x)) := by
      rw [List.filter_cons]
      simp
    rw [hst, List.map_append, List.map_cons, List.flatten_append,
      List.flatten_cons, hmapS, hmapT, hhd, List.cons_append]
    have h2 := ih (fun y hy => hg y (List.mem_cons_of_mem x hy))
    rw [hst, List.map_append, List.map_cons, List.flatten_append,
      List.flatten_cons] at h2
    exact List.Perm.trans List.perm_middle (List.Perm.cons x h2)

theorem scatterGo_ok (q : Query) (F : QueryExecutor → List Row)
    (C : QueryExecutor → List String) :
    ∀ (shards : List QueryExecutor),
      (∀ e ∈ shards, ∃ ex2, e.execute q = (.ok (.rows (F e) (C e)), ex2)) →
      ∀ accRows accCols, ∃ cols2 shards2,
        scatterGo q accRows accCols shards
          = (.ok (accRows ++ (shards.map F).flatten, cols2), shards2) := by
  intro shards
  induction shards with
  | nil =>
    intro _ accRows accCols
    exact ⟨accCols, [], by simp [scatterGo]⟩
  | cons e rest ih =>
    intro hexec accRows accCols
    obtain ⟨ex2, he⟩ := hexec e (List.mem_cons_self e rest)
    obtain ⟨cols2, shards2, hrest⟩ :=
      ih (fun e2 h2 => hexec e2 (List.mem_cons_of_mem e h2))
        (accRows ++ F e) (if accCols.isEmpty then C e else accCols)
    refine ⟨cols2, ex2 :: shards2, ?_⟩
    simp only [List.isEmpty_iff] at hrest
    simp [scatterGo, he, hrest]

theorem shardRows_single (nm : String) (t : Table) :
    shardRows nm ⟨[(nm, t)]⟩ = t.page_manager.scan.map (·.2) := by
  simp [shardRows, tablesGet]

theorem shardCols_single (nm : String) (t : Table) :
    shardCols nm ⟨[(nm, t)]⟩ = t.schema.columns.map (·.name) := by
  simp [shardCols, tablesGet]

theorem shard_exec_select (nm : String) (t : Table) :
    QueryExecutor.execute ⟨[(nm, t)]⟩ (.select nm none)
      = (.ok (.rows (shardRows nm ⟨[(nm, t)]⟩) (shardCols nm ⟨[(nm, t)]⟩)),
         ⟨[(nm, t)]⟩) := by
  rw [shardRows_single, shardCols_single]
  exact exec_select_none_red ⟨[(nm, t)]⟩ nm t (tablesGet_single nm t)

theorem sharded_select_none_red (h : String → Nat) (db : ShardedDatabase)
    (nm : String) (rows : List Row) (cols : List String)
    (shards2 : List QueryExecutor)
    (hscat : scatterGo (.select nm none) [] [] db.shards
      = (.ok (rows, cols), shards2)) :
    db.execute h (.select nm none)
      = (.ok (.rows rows cols), ShardedDatabase.mk shards2 db.num_shards) := by
  show ((match (scatterGo (.select nm none) [] [] db.shards).1 with
    | Except.error e => ((Except.error e : Except String QueryResult),
        ShardedDatabase.mk
          (scatterGo (.select nm none) [] [] db.shards).2 db.num_shards)
    | Except.ok (rows2, cols2) => (Except.ok (QueryResult.rows rows2 cols2),
        ShardedDatabase.mk
          (scatterGo (.select nm none) [] [] db.shards).2 db.num_shards)) :
      Except String QueryResult × ShardedDatabase)
    = (Except.ok (QueryResult.rows rows cols),
       ShardedDatabase.mk shards2 db.num_shards)
  rw [hscat]

theorem scatter_select_rows (h : String → Nat) (n : Nat) (nm : String)
    (sch : Schema) (db : ShardedDatabase) (done : List (List Value))
    (hinv : GlobalInv h n nm sch db done) :
    ∃ cols shards2,
      db.execute h (.select nm none)
        = (.ok (.rows ((db.shards.map (shardRows nm)).flatten) cols),
           ShardedDatabase.mk shards2 db.num_shards) := by
  obtain ⟨hnum, hlen, hsh⟩ := hinv
  have hex : ∀ e ∈ db.shards, ∃ ex2,
      e.execute (.select nm none)
        = (.ok (.rows (shardRows nm e) (shardCols nm e)), ex2) := by
    intro e hmem
    obtain ⟨i, hi, hei⟩ := List.mem_iff_getElem.mp hmem
    obtain ⟨tj, hjg, _⟩ := hsh i (by rw [hlen] at hi; exact hi)
    have hei2 : db.shards[i]? = some e := by
      rw [List.getElem?_eq_getElem hi, hei]
    have he : e = ⟨[(nm, tj)]⟩ := Option.some.inj (hei2.symm.trans hjg)
    rw [he]
    exact ⟨_, shard_exec_select nm tj⟩
  obtain ⟨cols2, shards2, hscat⟩ :=
    scatterGo_ok (.select nm none) (shardRows nm) (shardCols nm) db.shards hex [] []
  rw [List.nil_append] at hscat
  exact ⟨cols2, shards2, sharded_select_none_red h db nm _ cols2 shards2 hscat⟩

theorem shards_rows_char (h : String → Nat) (n : Nat) (nm : String)
    (sch : Schema) (db : ShardedDatabase) (done : List (List Value))
    (hinv : GlobalInv h n nm sch db done) :
    db.shards.map (fun e => (shardRows nm e).map (fun r => r.values))
      = (List.range n).map (fun j => done.filter (fun vs => shardOf h n vs = j)) := by
  obtain ⟨hnum, hlen, hsh⟩ := hinv
  apply listCharRange
  · rw [List.length_map]
    exact hlen
  · intro j hj
    obtain ⟨tj, hjg, _, _, hscanj, _⟩ := hsh j hj
    rw [List.getElem?_map, hjg]
    simp only [Option.map_some']
    rw [shardRows_single, List.map_map]
    exact congrArg some hscanj

theorem shards_counts_char (h : String → Nat) (n : Nat) (nm : String)
    (sch : Schema) (db : ShardedDatabase) (done : List (List Value))
    (hinv : GlobalInv h n nm sch db done) :
    db.shardRowCounts nm
      = (List.range n).map
          (fun j => (done.filter (fun vs => shardOf h n vs = j)).length) := by
  obtain ⟨hnum, hlen, hsh⟩ := hinv
  apply listCharRange
  · rw [ShardedDatabase.shardRowCounts, List.length_map]
    exact hlen
  · intro j hj
    obtain ⟨tj, hjg, _, _, hscanj, _⟩ := hsh j hj
    rw [ShardedDatabase.shardRowCounts, List.getElem?_map, hjg]
    simp only [Option.map_some']
    rw [show tablesGet (QueryExecutor.mk [(nm, tj)]).tables nm = some tj
      from tablesGet_single nm tj]
    show some tj.row_count = _
    have hcnt : tj.row_count = (done.filter (fun vs => shardOf h n vs = j)).length := by
      show tj.page_manager.total_rows = _
      rw [← hscanj, List.length_map, scan_length]
    rw [hcnt]

/-! ### C9 -/

/-- C9: on a fresh router of `n ≥ 1` partitions, creating the table
broadcasts to every shard and reports success; driving `K` `INSERT`s whose
first (routing) values are pairwise `cmp`-distinct through the router
succeeds, each row landing on the partition given by hashing its serialized
first value modulo `n`; the per-partition row counts are exactly the sizes
of those hash classes and sum to `K`; and an unfiltered `SELECT`
scatter-gathers over all partitions, returning exactly the `K` inserted rows
up to order - no loss and no duplication. -/
theorem C9_scatter_gather_completeness (h : String → Nat) (n : Nat)
    (hn : 0 < n) (nm : String) (sch : Schema)
    (hpk0 : sch.get_primary_key_index = some 0)
    (hnod : (sch.columns.map (fun c => c.name)).Nodup)
    (rowsVals : List (List Value))
    (harity : ∀ vs ∈ rowsVals, vs.length = sch.columns.length)
    (hdist : List.Pairwise (fun a b =>
      ¬ (idxCmp (b.getD 0 .null) (a.getD 0 .null) = .eq
        ∨ idxCmp (a.getD 0 .null) (b.getD 0 .null) = .eq)) rowsVals) :
    ((ShardedDatabase.new n).execute h (.createTable nm sch)).1
      = .ok (.message "Table created on all shards") ∧
    ∃ db2,
      insertAll h nm ((ShardedDatabase.new n).execute h (.createTable nm sch)).2
        rowsVals = .ok db2 ∧
      db2.shardRowCounts nm
        = (List.range n).map
            (fun j => (rowsVals.filter (fun vs => shardOf h n vs = j)).length) ∧
      (db2.shardRowCounts nm).sum = rowsVals.length ∧
      ∃ rows cols db3,
        db2.execute h (.select nm none) = (.ok (.rows rows cols), db3) ∧
        (rows.map (fun r => r.values)).Perm rowsVals := by
  have hct := sharded_createTable_red h n nm sch
  have h2 : ((ShardedDatabase.new n).execute h (.createTable nm sch)).2
      = ShardedDatabase.mk (List.replicate n ⟨[(nm, Table.new nm sch)]⟩) n := by
    rw [hct]
  refine ⟨by rw [hct], ?_⟩
  obtain ⟨db2, hall, hinv2⟩ := insertAll_inv h n nm sch hn hpk0 hnod rowsVals []
    (ShardedDatabase.mk (List.replicate n ⟨[(nm, Table.new nm sch)]⟩) n)
    (GlobalInv_init h n nm sch hpk0) harity
    (fun u hu => absurd hu (List.not_mem_nil u)) hdist
  rw [List.nil_append] at hinv2
  have hglt : ∀ x ∈ rowsVals, shardOf h n x < n := fun x _ => Nat.mod_lt _ hn
  have hperm0 := flatten_filter_range_perm rowsVals (shardOf h n) n hglt
  have hcounts := shards_counts_char h n nm sch db2 rowsVals hinv2
  refine ⟨db2, by rw [h2]; exact hall, hcounts, ?_, ?_⟩
  · rw [hcounts]
    have hl := hperm0.length_eq
    rw [List.length_flatten, List.map_map] at hl
    exact hl
  · obtain ⟨cols, shards2, hsel⟩ := scatter_select_rows h n nm sch db2 rowsVals hinv2
    refine ⟨_, cols, _, hsel, ?_⟩
    have hchar := shards_rows_char h n nm sch db2 rowsVals hinv2
    have hperm1 : ((db2.shards.map (fun e =>
        (shardRows nm e).map (fun r => r.values))).flatten).Perm rowsVals := by
      rw [hchar]
      exact hperm0
    rw [List.map_flatten, List.map_map]
    exact hperm1

/-- Closed instance of C9: two shards, length-of-string hash, the scenario
rows `(1,"a")` and `(2,"c")`. -/
theorem C9_witness :
    ((ShardedDatabase.new 2).execute (fun s => s.length)
        (.createTable "t" demoSchema)).1
      = .ok (.message "Table created on all shards") ∧
    ∃ db2,
      insertAll (fun s => s.length) "t"
        ((ShardedDatabase.new 2).execute (fun s => s.length)
          (.createTable "t" demoSchema)).2
        [[.integer 1, .text "a"], [.integer 2, .text "c"]] = .ok db2 ∧
      db2.shardRowCounts "t"
        = (List.range 2).map (fun j =>
            (([[.integer 1, .text "a"], [.integer 2, .text "c"]] :
                List (List Value)).filter
              (fun vs => shardOf (fun s => s.length) 2 vs = j)).length) ∧
      (db2.shardRowCounts "t").sum
        = ([[.integer 1, .text "a"], [.integer 2, .text "c"]] :
            List (List Value)).length ∧
      ∃ rows cols db3,
        db2.execute (fun s => s.length) (.select "t" none)
          = (.ok (.rows rows cols), db3) ∧
        (rows.map (fun r => r.values)).Perm
          [[.integer 1, .text "a"], [.integer 2, .text "c"]] :=
  C9_scatter_gather_completeness (fun s => s.length) 2 (by decide) "t"
    demoSchema (by decide) (by decide)
    [[.integer 1, .text "a"], [.integer 2, .text "c"]] (by decide) (by decide)

end SqlDb
